import Mathlib

attribute [local semireducible] Rat.add Rat.mul Rat.inv Rat.sub Rat.ofScientific

/-!
Verification of the mesh decomposition and assembly pipeline of the
ebanisteria 3D joint viewer.

The embedding below translates the JavaScript source into Lean:

* `splitMeshByComponents` (VisorCanvas.jsx): union-find over quantized
  vertex positions, grouping triangles into connected components, then
  materializing one sub-mesh per component sorted by descending
  bounding-box volume.  The source union-find uses path halving
  (`parent[a] = parent[parent[a]]`) inside `find`; this is modelled
  state-passing with a fuel argument (`findH`).  The JS `Map` keyed by
  root with insertion order is modelled extensionally by
  `componentsIdx` (distinct roots in first-occurrence order, each with
  its ascending triangle list).
* `splitMeshGeometrically` (VisorCanvas.jsx): midpoint split fallback.
* `piezasManualSetup` (VisorCanvas.jsx, `PiezasManual` useMemo body):
  center, scale to 5.5 max dimension, split, classify base/moving,
  auxiliary filter and start position.
* `getFamiliaConfig`, `buildCortadaGeo` (procedural cut synthesis).

Machine floats are modelled by `ℚ`; `Math.round` is `round` (both are
floor of x + 1/2).
-/

namespace Ebanisteria

/-- A 3D vertex position (source: entries of the position buffer). -/
structure Vec3 where
  x : ℚ
  y : ℚ
  z : ℚ
deriving DecidableEq

/-- One triangle of the flat buffer: three vertex positions. -/
structure Tri where
  a : Vec3
  b : Vec3
  c : Vec3
deriving DecidableEq

/-- Quantization key, source line:
`Math.round(x*1000),Math.round(y*1000),Math.round(z*1000)`. -/
def quantKey (v : Vec3) : ℤ × ℤ × ℤ :=
  (round (v.x * 1000), round (v.y * 1000), round (v.z * 1000))

/-- Flat list of vertex quantization keys of a triangle list, in buffer
order (vertex index `3*t + j` belongs to triangle `t`, corner `j`). -/
def keysOf (tris : List Tri) : List (ℤ × ℤ × ℤ) :=
  tris.flatMap fun t => [quantKey t.a, quantKey t.b, quantKey t.c]

/-- Canonical vertex index: the first buffer index holding the same
quantization key (source: the `posMap` first-occurrence map). -/
def canonAt (keys : List (ℤ × ℤ × ℤ)) (i : Nat) : Nat :=
  keys.findIdx fun k => k = keys.getD i (0, 0, 0)

/-- `find` with path halving, translated from
`while (parent[a] !== a) { parent[a] = parent[parent[a]]; a = parent[a]; }`.
The mutation is modelled by returning the updated parent map; `fuel`
bounds the loop (proved sufficient below for all reachable states). -/
def findH : Nat → (Nat → Nat) → Nat → ((Nat → Nat) × Nat)
  | 0, p, a => (p, a)
  | fuel + 1, p, a =>
    if p a = a then (p, a)
    else findH fuel (Function.update p a (p (p a))) (p (p a))

/-- One triangle step of the union loop, translated from:
`ra = find(canon[3t]); rb = find(canon[3t+1]); rc = find(canon[3t+2]);`
`if (ra !== rb) parent[ra] = rb;`
`rbc = find(canon[3t+1]); if (rbc !== rc) parent[rbc] = rc;`. -/
def unionStep (fuel : Nat) (p : Nat → Nat) (a b c : Nat) : Nat → Nat :=
  let f1 := findH fuel p a
  let f2 := findH fuel f1.1 b
  let f3 := findH fuel f2.1 c
  let p4 := if f1.2 = f2.2 then f3.1 else Function.update f3.1 f1.2 f2.2
  let f5 := findH fuel p4 b
  if f5.2 = f3.2 then f5.1 else Function.update f5.1 f5.2 f3.2

/-- The union loop over all triangles, in order. -/
def ufFold (fuel : Nat) (canon : Nat → Nat) : List Nat → (Nat → Nat) → (Nat → Nat)
  | [], p => p
  | t :: ts, p =>
      ufFold fuel canon ts (unionStep fuel p (canon (3 * t)) (canon (3 * t + 1)) (canon (3 * t + 2)))

/-- The grouping loop root computation: sequential stateful `find` on
each triangle first corner (source: `find(canon[t*3])`). -/
def rootsFold (fuel : Nat) (canon : Nat → Nat) : List Nat → (Nat → Nat) → ((Nat → Nat) × List Nat)
  | [], p => (p, [])
  | t :: ts, p =>
      let fr := findH fuel p (canon (3 * t))
      let rest := rootsFold fuel canon ts fr.1
      (rest.1, fr.2 :: rest.2)

/-- Distinct elements in first-occurrence order, skipping the ones
already seen. -/
def firstOccursAux : List Nat → List Nat → List Nat
  | [], _ => []
  | r :: rs, seen =>
    if r ∈ seen then firstOccursAux rs seen else r :: firstOccursAux rs (r :: seen)

/-- Distinct elements in first-occurrence order (order of keys of the
JS `Map` built by the grouping loop). -/
def firstOccurs (l : List Nat) : List Nat := firstOccursAux l []

/-- The triangle-index groups: for each distinct root, in
first-occurrence order, the ascending list of triangles with that root
(extensionally the JS insertion-order `Map` of the source). -/
def componentsIdx (roots : List Nat) (T : Nat) : List (List Nat) :=
  (firstOccurs roots).map fun r => (List.range T).filter fun t => roots.getD t 0 = r

/-- The union-find phase of `splitMeshByComponents`: the root list, one
root per triangle. -/
def splitRoots (tris : List Tri) : List Nat :=
  let T := tris.length
  let n := 3 * T
  let keys := keysOf tris
  let canon := fun i => canonAt keys i
  let fuel := n + 2
  let p1 := ufFold fuel canon (List.range T) id
  (rootsFold fuel canon (List.range T) p1).2

/-- Triangle-index connected components of the buffer, in
first-occurrence order (before volume sorting). -/
def splitIdx (tris : List Tri) : List (List Nat) :=
  componentsIdx (splitRoots tris) tris.length

/-- Axis-aligned bounding box. -/
structure BBox where
  lo : Vec3
  hi : Vec3
deriving DecidableEq

/-- Componentwise minimum. -/
def vmin (u v : Vec3) : Vec3 := ⟨min u.x v.x, min u.y v.y, min u.z v.z⟩

/-- Componentwise maximum. -/
def vmax (u v : Vec3) : Vec3 := ⟨max u.x v.x, max u.y v.y, max u.z v.z⟩

/-- All vertices of a triangle list, in buffer order. -/
def vertsOf (g : List Tri) : List Vec3 := g.flatMap fun t => [t.a, t.b, t.c]

/-- Bounding box of a geometry (source: `computeBoundingBox`); the
empty geometry yields a degenerate box at the origin and is excluded by
hypothesis wherever the source would produce an empty-box sentinel. -/
def bboxOf (g : List Tri) : BBox :=
  match vertsOf g with
  | [] => ⟨⟨0, 0, 0⟩, ⟨0, 0, 0⟩⟩
  | v :: vs => ⟨vs.foldl vmin v, vs.foldl vmax v⟩

/-- Box size (source: `boundingBox.getSize`). -/
def bboxSize (b : BBox) : Vec3 := ⟨b.hi.x - b.lo.x, b.hi.y - b.lo.y, b.hi.z - b.lo.z⟩

/-- Bounding-box volume of a geometry (source: `sv.x*sv.y*sv.z`). -/
def volBB (g : List Tri) : ℚ :=
  (bboxSize (bboxOf g)).x * (bboxSize (bboxOf g)).y * (bboxSize (bboxOf g)).z

/-- Stable descending insertion keyed by `vol` (the ES2019 stable
`Array.sort` with comparator `vb - va`): an element is placed before
the first element with a strictly smaller key, after equal keys. -/
def insertByVol {α : Type} (vol : α → ℚ) (x : α) : List α → List α
  | [] => [x]
  | y :: ys => if vol y ≤ vol x then x :: y :: ys else y :: insertByVol vol x ys

/-- Stable sort by descending key. -/
def sortByVolDesc {α : Type} (vol : α → ℚ) : List α → List α
  | [] => []
  | x :: xs => insertByVol vol x (sortByVolDesc vol xs)

/-- Default triangle used only for out-of-range `getD` access. -/
def dTri : Tri := ⟨⟨0, 0, 0⟩, ⟨0, 0, 0⟩, ⟨0, 0, 0⟩⟩

/-- Materialize a component: copy the positions of its triangles
(source: the `pArr` copy loop). -/
def materialize (tris : List Tri) (g : List Nat) : List Tri :=
  g.map fun t => tris.getD t dTri

/-- The component index groups sorted by descending bounding-box volume
of their materialized geometry. -/
def sortedComponentsIdx (tris : List Tri) : List (List Nat) :=
  sortByVolDesc (fun g => volBB (materialize tris g)) (splitIdx tris)

/-- `splitMeshByComponents` (VisorCanvas.jsx): union-find partition of
the triangle buffer into connected sub-meshes, sorted by descending
bounding-box volume. -/
def splitMeshByComponents (tris : List Tri) : List (List Tri) :=
  (sortedComponentsIdx tris).map (materialize tris)

/-- The three assembly axes of the joint-family configuration. -/
inductive Axis
  | x
  | y
  | z
deriving DecidableEq

/-- Coordinate of a vertex along an axis. -/
def axisCoord (ax : Axis) (v : Vec3) : ℚ :=
  match ax with
  | .x => v.x
  | .y => v.y
  | .z => v.z

/-- Triangle centroid coordinate along an axis (source:
`(get(t*3) + get(t*3+1) + get(t*3+2)) / 3`). -/
def centroidCoord (ax : Axis) (t : Tri) : ℚ :=
  (axisCoord ax t.a + axisCoord ax t.b + axisCoord ax t.c) / 3

/-- Midpoint of the mesh extent along an axis (source: the `lo`/`hi`
loop and `mid = (lo + hi) / 2`). -/
def axisMid (tris : List Tri) (ax : Axis) : ℚ :=
  let coords := (vertsOf tris).map (axisCoord ax)
  let lo := match coords with | [] => 0 | c :: cs => cs.foldl min c
  let hi := match coords with | [] => 0 | c :: cs => cs.foldl max c
  (lo + hi) / 2

/-- `splitMeshGeometrically` (VisorCanvas.jsx): fallback split of a
single-component mesh into two halves at the axis midpoint; a triangle
goes to the first half iff its centroid coordinate is at most the
midpoint. -/
def splitMeshGeometrically (tris : List Tri) (ax : Axis) : List (List Tri) :=
  let mid := axisMid tris ax
  [tris.filter fun t => decide (centroidCoord ax t ≤ mid),
   tris.filter fun t => !decide (centroidCoord ax t ≤ mid)]

/-- The `ensamble` configuration record of a catalog model. -/
structure Ensamble where
  axis : Axis := Axis.y
  allComps : Bool := false
  auxInBase : Bool := false
  geoSplit : Bool := false
  holePositions : Option (List (ℚ × ℚ)) := none
deriving DecidableEq

/-- Result of the `PiezasManual` useMemo body: the static base piece,
static base auxiliaries, the movable group and its start position. -/
structure SetupResult where
  geoA : Option (List Tri)
  auxBase : List (List Tri)
  upperGroup : List (List Tri)
  startPos : Vec3
deriving DecidableEq

/-- Box center (source: `getCenter`). -/
def bboxCenter (b : BBox) : Vec3 :=
  ⟨(b.lo.x + b.hi.x) / 2, (b.lo.y + b.hi.y) / 2, (b.lo.z + b.hi.z) / 2⟩

/-- Largest box dimension (source: `Math.max(sz.x, sz.y, sz.z)`). -/
def maxDim (b : BBox) : ℚ :=
  max (bboxSize b).x (max (bboxSize b).y (bboxSize b).z)

/-- Translate a vertex. -/
def vadd (d v : Vec3) : Vec3 := ⟨v.x + d.x, v.y + d.y, v.z + d.z⟩

/-- Map a vertex transform over a triangle. -/
def mapTri (f : Vec3 → Vec3) (t : Tri) : Tri := ⟨f t.a, f t.b, f t.c⟩

/-- Translate a geometry (source: `geo.translate`). -/
def translateTris (d : Vec3) (g : List Tri) : List Tri :=
  g.map (mapTri (vadd d))

/-- Center then uniformly scale the model so its largest dimension is
5.5 (source: `geo.center(); geo.scale(escala, escala, escala)` with
`escala = 5.5 / Math.max(sz.x, sz.y, sz.z)`). -/
def prepGeo (tris : List Tri) : List Tri :=
  let c := bboxCenter (bboxOf tris)
  let escala := (11 / 2 : ℚ) / maxDim (bboxOf tris)
  tris.map (mapTri fun v => ⟨(v.x - c.x) * escala, (v.y - c.y) * escala, (v.z - c.z) * escala⟩)

/-- Bounding-box center coordinate of a geometry along an axis
(source: `(bb.min.y + bb.max.y) / 2` and variants). -/
def centerCoord (ax : Axis) (g : List Tri) : ℚ :=
  (axisCoord ax (bboxOf g).lo + axisCoord ax (bboxOf g).hi) / 2

/-- Initial separation constant of piece B (source: `const SEP = 2.8`). -/
def SEP : ℚ := 14 / 5

/-- Stable ascending insertion keyed by `key` (the JS
`sort((a, b) => a.x - b.x)`). -/
def insertByKeyAsc {α : Type} (key : α → ℚ) (x : α) : List α → List α
  | [] => [x]
  | y :: ys => if key x ≤ key y then x :: y :: ys else y :: insertByKeyAsc key x ys

/-- Stable sort by ascending key. -/
def sortByKeyAsc {α : Type} (key : α → ℚ) : List α → List α
  | [] => []
  | x :: xs => insertByKeyAsc key x (sortByKeyAsc key xs)

/-- Recenter an auxiliary geometry onto a base hole (source: the
`sorted.forEach` translate in the `auxInBase` branch). -/
def moveAuxToHole (targetCy : ℚ) (g : List Tri) (hxz : ℚ × ℚ) : List Tri :=
  translateTris
    ⟨hxz.1 - centerCoord .x g, targetCy - centerCoord .y g, hxz.2 - centerCoord .z g⟩ g

/-- Recenter an auxiliary geometry vertically only (source: the
`auxGeos.forEach` fallback in the `auxInBase` branch). -/
def moveAuxY (targetCy : ℚ) (g : List Tri) : List Tri :=
  translateTris ⟨0, targetCy - centerCoord .y g, 0⟩ g

/-- The component list used by `PiezasManual`: union-find components,
replaced by the geometric midpoint split when they are fewer than two
and the descriptor enables `geoSplit`. -/
def effectiveParts (geo : List Tri) (e : Ensamble) : List (List Tri) :=
  if (splitMeshByComponents geo).length < 2 ∧ e.geoSplit = true then
    splitMeshGeometrically geo e.axis
  else splitMeshByComponents geo

/-- Base/moving classification of the two largest components (source:
the `cy1 <= cy2 ? [p1, p2] : [p2, p1]` ternaries): z-centers when the
assembly axis is z, y-centers otherwise (also for axis x). -/
def classifyPair (partes : List (List Tri)) (ax : Axis) : List Tri × List Tri :=
  let p1 := partes.getD 0 []
  let p2 := partes.getD 1 []
  let keep :=
    if ax = Axis.z then centerCoord .z p1 ≤ centerCoord .z p2
    else centerCoord .y p1 ≤ centerCoord .y p2
  if keep then (p1, p2) else (p2, p1)

/-- The y midline between the base top face and the moving bottom face
(source: `midY`). -/
def midYOf (geoA geoB : List Tri) : ℚ :=
  ((bboxOf geoA).hi.y + (bboxOf geoB).lo.y) / 2

/-- Auxiliary components kept for animation: the components of index
at least 2 whose y-center lies strictly above the midline, and only
when `allComps` is enabled; all the others are dropped. -/
def auxFilter (partes : List (List Tri)) (geoA geoB : List Tri) (allComps : Bool) :
    List (List Tri) :=
  if allComps then
    (partes.drop 2).filter fun g => decide (midYOf geoA geoB < centerCoord .y g)
  else []

/-- The separated start position of the moving group (source: the
`startPos` branches). -/
def startPosOf (ax : Axis) (geoA geoB : List Tri) : Vec3 :=
  if ax = Axis.x then ⟨SEP, -((bboxOf geoB).hi.y - (bboxOf geoA).hi.y), 0⟩
  else if ax = Axis.z then ⟨0, 0, (bboxOf geoA).hi.z + SEP⟩
  else ⟨0, (bboxOf geoA).hi.y + SEP, 0⟩

/-- The static base auxiliaries of the `auxInBase` branch: either moved
onto the base holes (when enough hole positions exist) or only
recentered vertically. -/
def auxInBaseGeos (origCenter : Vec3) (escala : ℚ) (e : Ensamble)
    (auxGeos : List (List Tri)) (targetCy : ℚ) : List (List Tri) :=
  match e.holePositions with
  | some holes =>
    if auxGeos.length ≤ holes.length then
      let sceneHoles :=
        sortByKeyAsc (fun h => h.1)
          (holes.map fun h => ((h.1 - origCenter.x) * escala, (h.2 - origCenter.z) * escala))
      let sortedAux := sortByKeyAsc (centerCoord .x) auxGeos
      (sortedAux.zip sceneHoles).map fun gh => moveAuxToHole targetCy gh.1 gh.2
    else auxGeos.map (moveAuxY targetCy)
  | none => auxGeos.map (moveAuxY targetCy)

/-- The geometry preparation and classification of `PiezasManual`
(VisorCanvas.jsx, second variant, useMemo body): center and scale the
model, split into components (with the geometric fallback when enabled),
classify base and moving pieces, filter auxiliaries, and compute the
separated start position. -/
def piezasManualSetup (tris0 : List Tri) (e : Ensamble) : SetupResult :=
  if (effectiveParts (prepGeo tris0) e).length < 2 then
    { geoA := (effectiveParts (prepGeo tris0) e).head?, auxBase := [], upperGroup := [],
      startPos := ⟨0, SEP, 0⟩ }
  else if e.auxInBase then
    { geoA := some (classifyPair (effectiveParts (prepGeo tris0) e) e.axis).1
      auxBase := auxInBaseGeos (bboxCenter (bboxOf tris0)) ((11 / 2 : ℚ) / maxDim (bboxOf tris0)) e
        (auxFilter (effectiveParts (prepGeo tris0) e)
          (classifyPair (effectiveParts (prepGeo tris0) e) e.axis).1
          (classifyPair (effectiveParts (prepGeo tris0) e) e.axis).2 e.allComps)
        ((bboxOf (classifyPair (effectiveParts (prepGeo tris0) e) e.axis).1).hi.y)
      upperGroup := [(classifyPair (effectiveParts (prepGeo tris0) e) e.axis).2]
      startPos := startPosOf e.axis (classifyPair (effectiveParts (prepGeo tris0) e) e.axis).1
        (classifyPair (effectiveParts (prepGeo tris0) e) e.axis).2 }
  else
    { geoA := some (classifyPair (effectiveParts (prepGeo tris0) e) e.axis).1
      auxBase := []
      upperGroup := (classifyPair (effectiveParts (prepGeo tris0) e) e.axis).2 ::
        auxFilter (effectiveParts (prepGeo tris0) e)
          (classifyPair (effectiveParts (prepGeo tris0) e) e.axis).1
          (classifyPair (effectiveParts (prepGeo tris0) e) e.axis).2 e.allComps
      startPos := startPosOf e.axis (classifyPair (effectiveParts (prepGeo tris0) e) e.axis).1
        (classifyPair (effectiveParts (prepGeo tris0) e) e.axis).2 }

/-- Two triangles of the buffer share a vertex: some corner of one has
the same quantization key as some corner of the other. -/
def sharesVert (tris : List Tri) (t u : Nat) : Prop :=
  t < tris.length ∧ u < tris.length ∧
    ∃ i < 3, ∃ j < 3,
      (keysOf tris).getD (3 * t + i) (0, 0, 0) = (keysOf tris).getD (3 * u + j) (0, 0, 0)

/-- Connectivity through a chain of shared vertices. -/
def Connected (tris : List Tri) : Nat → Nat → Prop :=
  Relation.ReflTransGen (sharesVert tris)

/-- A parametric cut volume: box dimensions and local offset
(source: the `{ args, pos }` records of `getFamiliaConfig`). -/
structure Zona where
  args : ℚ × ℚ × ℚ
  pos : ℚ × ℚ × ℚ
deriving DecidableEq

/-- Per-family stock blocks and cut lists (source: the return records
of `getFamiliaConfig`). -/
structure FamiliaConfig where
  bloqueA : ℚ × ℚ × ℚ
  bloqueB : ℚ × ℚ × ℚ
  eliminarA : List Zona
  eliminarB : List Zona
deriving DecidableEq

/-- `getFamiliaConfig` (cut-synthesis VisorCanvas variant): the switch
over the family identifier; the `machihembrada` case doubles as the
`default:` branch. -/
def getFamiliaConfig (familia : String) : FamiliaConfig :=
  if familia = "caja-espiga" then
    { bloqueA := (3.2, 5.0, 2.5)
      bloqueB := (3.2, 5.0, 2.5)
      eliminarA := [⟨(1.1, 2.8, 1.5), (0, 0, 0)⟩]
      eliminarB := [⟨(1.0, 2.7, 1.4), (0, 0, 1.4)⟩,
                    ⟨(1.1, 1.1, 2.5), (0, 1.5, 0)⟩,
                    ⟨(1.1, 1.1, 2.5), (0, -1.5, 0)⟩] }
  else if familia = "tarugo" then
    { bloqueA := (3.5, 4.5, 2.5)
      bloqueB := (3.5, 4.5, 2.5)
      eliminarA := [⟨(0.5, 0.5, 1.2), (0, 0.9, 0)⟩,
                    ⟨(0.5, 0.5, 1.2), (0, -0.9, 0)⟩]
      eliminarB := [⟨(0.5, 0.5, 1.2), (0, 0.9, 0)⟩,
                    ⟨(0.5, 0.5, 1.2), (0, -0.9, 0)⟩] }
  else if familia = "horquilla" then
    { bloqueA := (3.5, 4.5, 2.5)
      bloqueB := (3.5, 4.5, 2.5)
      eliminarA := [⟨(1.2, 1.8, 2.5), (0, 0, 0)⟩]
      eliminarB := [⟨(1.05, 2.5, 2.5), (-1.0, 0, 0)⟩,
                    ⟨(1.05, 2.5, 2.5), (1.0, 0, 0)⟩] }
  else if familia = "media-madera" then
    { bloqueA := (4.0, 4.0, 2.5)
      bloqueB := (4.0, 4.0, 2.5)
      eliminarA := [⟨(4.0, 2.0, 1.3), (0, 1.0, 0.6)⟩]
      eliminarB := [⟨(4.0, 2.0, 1.3), (0, -1.0, 0.6)⟩] }
  else if familia = "cola-milano" then
    { bloqueA := (3.5, 5.0, 2.5)
      bloqueB := (3.5, 5.0, 2.5)
      eliminarA := [⟨(1.4, 3.2, 1.5), (0, 0, 0)⟩]
      eliminarB := [⟨(0.8, 1.2, 2.5), (-0.9, 0, 0)⟩,
                    ⟨(0.8, 1.2, 2.5), (0.9, 0, 0)⟩] }
  else
    { bloqueA := (4.0, 2.5, 3.0)
      bloqueB := (4.0, 2.5, 3.0)
      eliminarA := [⟨(4.0, 0.6, 1.0), (0, 0, 0.5)⟩]
      eliminarB := [⟨(4.0, 0.55, 1.0), (0, 0, -0.5)⟩] }

/-- The family identifiers with their own switch cases; every other
identifier reaches the `default:` branch. -/
def knownFamilias : List String :=
  ["caja-espiga", "tarugo", "horquilla", "media-madera", "cola-milano", "machihembrada"]

/-- The CSG subtraction loop of `buildCortadaGeo`: subtract each cut
volume in order; `none` models the evaluator throwing, which in the
source aborts the whole `try` block. The evaluator itself is the
external three-bvh-csg collaborator, so it is a parameter. -/
def csgFold {G : Type} (csgEval : G → Zona → Option G) : G → List Zona → Option G
  | g, [] => some g
  | g, z :: zs =>
    match csgEval g z with
    | some g2 => csgFold csgEval g2 zs
    | none => none

/-- `buildCortadaGeo` (cut-synthesis VisorCanvas variant): subtract the
cut volumes from the stock block; on an evaluator throw, fall back to
the uncut stock block (`catch` branch). No degeneracy check is made on
a successfully returned geometry. -/
def buildCortadaGeo {G : Type} (mkBox : ℚ × ℚ × ℚ → G) (csgEval : G → Zona → Option G)
    (dims : ℚ × ℚ × ℚ) (eliminar : List Zona) : G :=
  match csgFold csgEval (mkBox dims) eliminar with
  | some g => g
  | none => mkBox dims

/-- Modelled from the spec: the progress-driven Assembly Transform is
absent from the sources (the `PiezasManual` viewer implements only
manual keyboard control and the separated start pose, and the
per-family `penetration` value declared in catalogoData.js is never
read). Following section 4.2: `penetration = min(heightBase,
heightMoving) * penetrationFraction`. -/
def penetrationDepth (hBase hMov frac : ℚ) : ℚ := min hBase hMov * frac

/-- Modelled from the spec: the mated-pose offset along the assembly
axis closes the gap between the near face of Moving and the far face of
Base and advances by the penetration depth into Base (section 4.2). -/
def matedOffset (baseHi movLo pen : ℚ) : ℚ := -((movLo - baseHi) + pen)

/-- Signed overlap length of the intervals `[lo1, hi1]` and
`[lo2, hi2]` along one axis. -/
def overlapLen (lo1 hi1 lo2 hi2 : ℚ) : ℚ := min hi1 hi2 - max lo1 lo2

/-!
Proof infrastructure for the union-find correctness argument.

The source `find` uses path halving.  The second union of a triangle
step uses the root of the third corner computed before the first union,
so the reachable parent states are not plain forests: a transient
two-node cycle can appear (it is repaired by the halving in the next
`find` that traverses it).  The invariant `Good` captures exactly the
reachable shape: parents stay inside the domain and inside their class,
every cycle is a self-loop or a 2-cycle, and the cycle nodes of one
class form a single self-loop or a single 2-cycle.
-/

/-- A union-find node on a cycle: a self-loop or half of a 2-cycle. -/
def Term (p : Nat → Nat) (a : Nat) : Prop := p (p a) = a

/-- Invariant of the reachable union-find parent states, relative to a
class map `C` whose fibers are the intended partition. -/
structure Good (n : Nat) (p : Nat → Nat) (C : Nat → Nat) : Prop where
  idOut : ∀ i, n ≤ i → p i = i
  lt : ∀ i, i < n → p i < n
  edge : ∀ i, C (p i) = C i
  cyc : ∀ i, i < n → ∀ m, p^[m + 1] i = i → Term p i
  tuniq : ∀ i, i < n → ∀ j, j < n → Term p i → Term p j → C i = C j → j = i ∨ j = p i

/-- Postcondition of one `findH` call from a `Good` state. -/
structure FindOut (n : Nat) (C p : Nat → Nat) (a : Nat) (out : (Nat → Nat) × Nat) : Prop where
  good : Good n out.1 C
  rlt : out.2 < n
  rclass : C out.2 = C a
  rroot : out.1 out.2 = out.2
  rterm : Term p out.2
  other : ∀ x, C x ≠ C a → out.1 x = p x
  rootedge : ∀ j x, p j = j → p x = j → out.1 x = j
  uniq : ∀ j, j < n → C j = C a → Term out.1 j → j = out.2

/-- Membership in a list of union pairs. -/
def PairRel (ps : List (Nat × Nat)) (u v : Nat) : Prop := (u, v) ∈ ps

/-- The fibers of the class map are the equivalence closure of the
processed union pairs. -/
def ClassesEq (C : Nat → Nat) (ps : List (Nat × Nat)) : Prop :=
  ∀ i j, C i = C j ↔ Relation.EqvGen (PairRel ps) i j

/-- Merge the class of `x` into the class of `y`. -/
def mergeC (C : Nat → Nat) (x y : Nat) : Nat → Nat :=
  fun i => if C i = C x then C y else C i

/-- The pairs unioned by the triangle loop, in processing order. -/
def pairsOf (canon : Nat → Nat) (ts : List Nat) : List (Nat × Nat) :=
  ts.flatMap fun t =>
    [(canon (3 * t), canon (3 * t + 1)), (canon (3 * t + 1), canon (3 * t + 2))]

/-- A stable class representative: a root that is the unique cycle node
of its class.  Once a `find` returns a root it is stable, and it stays
stable under later `find` calls, so the grouping loop records equal
roots exactly for equal classes. -/
def Stable (n : Nat) (p C : Nat → Nat) (r : Nat) : Prop :=
  r < n ∧ p r = r ∧ ∀ j, j < n → C j = C r → Term p j → j = r

/-!
Concrete inputs used by counterexamples and witnesses.  Each model is
pre-centered with largest dimension 5.5, so the preparation step is the
identity and the quantization keys stay exact.
-/

/-- A triangle with low x-center and high y-center (volume 4). -/
def cexP : Tri := ⟨⟨-2.75, 0.75, -0.5⟩, ⟨-0.75, 0.75, -0.5⟩, ⟨-0.75, 2.75, 0.5⟩⟩

/-- A triangle with high x-center and low y-center (volume 2). -/
def cexQ : Tri := ⟨⟨0.75, -2.75, -0.25⟩, ⟨2.75, -2.75, -0.25⟩, ⟨2.75, -0.75, 0.25⟩⟩

/-- A wide low base triangle spanning the full x extent (volume 11). -/
def cexB5 : Tri := ⟨⟨-2.75, -2.75, -0.5⟩, ⟨2.75, -2.75, -0.5⟩, ⟨2.75, -0.75, 0.5⟩⟩

/-- A high triangle reaching x = -2.75, so that the fixed start offset
2.8 leaves its box overlapping the base box along x. -/
def cexM5 : Tri := ⟨⟨-2.75, 0.75, -0.25⟩, ⟨0, 0.75, -0.25⟩, ⟨0, 2.75, 0.25⟩⟩

/-- A high moving triangle for the three-component model (volume 2). -/
def cexB9 : Tri := ⟨⟨-1, 0.75, -0.25⟩, ⟨1, 0.75, -0.25⟩, ⟨1, 2.75, 0.25⟩⟩

/-- A small auxiliary triangle whose y-center -0.15 lies below the
midline between the two main pieces. -/
def cexC9 : Tri := ⟨⟨-0.1, -0.2, 0⟩, ⟨0.1, -0.2, 0⟩, ⟨0.1, -0.1, 0.1⟩⟩

/-- First half of a single connected square (shares an edge with
`w10b`). -/
def w10a : Tri := ⟨⟨-2.75, -2.75, 0⟩, ⟨2.75, -2.75, 0⟩, ⟨2.75, 2.75, 0⟩⟩

/-- Second half of a single connected square. -/
def w10b : Tri := ⟨⟨-2.75, -2.75, 0⟩, ⟨2.75, 2.75, 0⟩, ⟨-2.75, 2.75, 0⟩⟩

theorem getD_mem {α : Type} (l : List α) (i : Nat) (d : α) (h : i < l.length) :
    l.getD i d ∈ l := by
  rw [List.getD_eq_getElem l d h]
  exact List.getElem_mem h

theorem mem_insertByVol {α : Type} (vol : α → ℚ) (x a : α) (l : List α) :
    a ∈ insertByVol vol x l ↔ a = x ∨ a ∈ l := by
  induction l with
  | nil => simp [insertByVol]
  | cons y ys ih =>
    rw [insertByVol]
    by_cases hc : vol y ≤ vol x
    · simp [if_pos hc]
    · simp only [if_neg hc, List.mem_cons, ih]
      tauto

theorem insertByVol_perm {α : Type} (vol : α → ℚ) (x : α) (l : List α) :
    (insertByVol vol x l).Perm (x :: l) := by
  induction l with
  | nil => simp [insertByVol]
  | cons y ys ih =>
    rw [insertByVol]
    by_cases hc : vol y ≤ vol x
    · rw [if_pos hc]
    · rw [if_neg hc]
      exact ((ih.cons y).trans (List.Perm.swap x y ys))

theorem sortByVolDesc_perm {α : Type} (vol : α → ℚ) (l : List α) :
    (sortByVolDesc vol l).Perm l := by
  induction l with
  | nil => simp [sortByVolDesc]
  | cons x xs ih =>
    rw [sortByVolDesc]
    exact (insertByVol_perm vol x _).trans (ih.cons x)

theorem insertByVol_pairwise {α : Type} (vol : α → ℚ) (x : α) (l : List α)
    (h : l.Pairwise fun a b => vol b ≤ vol a) :
    (insertByVol vol x l).Pairwise fun a b => vol b ≤ vol a := by
  induction l with
  | nil => simp [insertByVol]
  | cons y ys ih =>
    rw [insertByVol]
    rcases List.pairwise_cons.1 h with ⟨hy, hys⟩
    by_cases hc : vol y ≤ vol x
    · rw [if_pos hc]
      refine List.pairwise_cons.2 ⟨?_, h⟩
      intro z hz
      rcases List.mem_cons.1 hz with rfl | hz
      · exact hc
      · exact le_trans (hy z hz) hc
    · rw [if_neg hc]
      refine List.pairwise_cons.2 ⟨?_, ih hys⟩
      intro z hz
      rcases (mem_insertByVol vol x z ys).1 hz with rfl | hz
      · exact le_of_lt (lt_of_not_le hc)
      · exact hy z hz

theorem sortByVolDesc_pairwise {α : Type} (vol : α → ℚ) (l : List α) :
    (sortByVolDesc vol l).Pairwise fun a b => vol b ≤ vol a := by
  induction l with
  | nil => simp [sortByVolDesc]
  | cons x xs ih => exact insertByVol_pairwise vol x _ ih

theorem length_filter_pos_neg {α : Type} (p : α → Bool) (l : List α) :
    (l.filter p).length + (l.filter fun a => !(p a)).length = l.length := by
  induction l with
  | nil => simp
  | cons a l ih =>
    by_cases h : p a = true
    · simp [List.filter_cons, h]
      omega
    · rw [Bool.not_eq_true] at h
      simp [List.filter_cons, h]
      omega

theorem setup_eqs (tris0 : List Tri) (e : Ensamble) (gA gB : List Tri) (rest : List (List Tri))
    (hA : (piezasManualSetup tris0 e).geoA = some gA)
    (hB : (piezasManualSetup tris0 e).upperGroup = gB :: rest) :
    2 ≤ (effectiveParts (prepGeo tris0) e).length ∧
    gA = (classifyPair (effectiveParts (prepGeo tris0) e) e.axis).1 ∧
    gB = (classifyPair (effectiveParts (prepGeo tris0) e) e.axis).2 ∧
    (piezasManualSetup tris0 e).startPos = startPosOf e.axis gA gB ∧
    (e.auxInBase = false →
      (piezasManualSetup tris0 e).auxBase = [] ∧
      rest = auxFilter (effectiveParts (prepGeo tris0) e) gA gB e.allComps) := by
  unfold piezasManualSetup at hA hB ⊢
  by_cases hlen : (effectiveParts (prepGeo tris0) e).length < 2
  · rw [if_pos hlen] at hB
    exact absurd hB (by simp)
  · rw [if_neg hlen] at hA hB ⊢
    by_cases haux : e.auxInBase = true
    · rw [if_pos haux] at hA hB ⊢
      simp only at hA hB
      obtain ⟨rfl, rfl⟩ : gB = _ ∧ rest = [] := by
        have := List.cons.injEq .. ▸ hB
        exact ⟨(List.cons.inj hB).1.symm, (List.cons.inj hB).2.symm⟩
      refine ⟨by omega, (Option.some.inj hA).symm, rfl, ?_, ?_⟩
      · rw [(Option.some.inj hA)]
      · intro hf
        rw [haux] at hf
        exact absurd hf (by simp)
    · rw [if_neg haux] at hA hB ⊢
      simp only at hA hB
      obtain ⟨rfl, rfl⟩ : gB = _ ∧ rest = _ :=
        ⟨(List.cons.inj hB).1.symm, (List.cons.inj hB).2.symm⟩
      refine ⟨by omega, (Option.some.inj hA).symm, rfl, ?_, fun _ => ⟨rfl, ?_⟩⟩
      · rw [(Option.some.inj hA)]
      · rw [(Option.some.inj hA)]

/-- C3: for an axis-aligned joint family with nondegenerate pieces and
penetration fraction in [0, 1], the mated pose (progress = 100)
translates the Moving interval so that it overlaps the Base interval
along the assembly axis by exactly min(heightBase, heightMoving) times
the penetration fraction (exactly over the rationals, hence within any
floating-point epsilon). -/
theorem c3_mated_overlap (baseLo baseHi movLo movHi frac : ℚ)
    (hB : baseLo ≤ baseHi) (hM : movLo ≤ movHi) (h0 : 0 ≤ frac) (h1 : frac ≤ 1) :
    overlapLen baseLo baseHi
      (movLo + matedOffset baseHi movLo (penetrationDepth (baseHi - baseLo) (movHi - movLo) frac))
      (movHi + matedOffset baseHi movLo (penetrationDepth (baseHi - baseLo) (movHi - movLo) frac)) =
    penetrationDepth (baseHi - baseLo) (movHi - movLo) frac := by
  have hmin0 : 0 ≤ min (baseHi - baseLo) (movHi - movLo) :=
    le_min (by linarith) (by linarith)
  have hminB : min (baseHi - baseLo) (movHi - movLo) ≤ baseHi - baseLo := min_le_left _ _
  have hminM : min (baseHi - baseLo) (movHi - movLo) ≤ movHi - movLo := min_le_right _ _
  have hpenle : penetrationDepth (baseHi - baseLo) (movHi - movLo) frac ≤
      min (baseHi - baseLo) (movHi - movLo) := mul_le_of_le_one_right hmin0 h1
  have hpen0 : 0 ≤ penetrationDepth (baseHi - baseLo) (movHi - movLo) frac :=
    mul_nonneg hmin0 h0
  unfold overlapLen matedOffset
  rw [min_eq_left (by linarith), max_eq_right (by linarith)]
  ring

/-- Witness for C3 at base [0, 2], moving [2, 5], fraction 1/2. -/
theorem c3_mated_overlap_witness :
    ((0 : ℚ) ≤ 2 ∧ (2 : ℚ) ≤ 5 ∧ (0 : ℚ) ≤ 1 / 2 ∧ (1 / 2 : ℚ) ≤ 1) ∧
    overlapLen 0 2 (2 + matedOffset 2 2 (penetrationDepth (2 - 0) (5 - 2) (1 / 2)))
      (5 + matedOffset 2 2 (penetrationDepth (2 - 0) (5 - 2) (1 / 2))) =
    penetrationDepth (2 - 0) (5 - 2) (1 / 2) :=
  ⟨⟨by norm_num, by norm_num, by norm_num, by norm_num⟩,
   c3_mated_overlap 0 2 2 5 (1 / 2) (by norm_num) (by norm_num) (by norm_num) (by norm_num)⟩

/-- C6 counterexample: an unrecognized joint-family identifier does not
raise any error; `getFamiliaConfig` silently returns the
`machihembrada` configuration through the `default:` branch. -/
theorem c6_counterexample :
    ("cola-de-pez" ∉ knownFamilias) ∧
    getFamiliaConfig "cola-de-pez" = getFamiliaConfig "machihembrada" := by
  exact ⟨by decide, by decide⟩

/-- C6 amended: every identifier outside the configured family set
falls back silently to the machihembrada configuration (the shared
`default:` case); no error is raised. -/
theorem c6_amended (familia : String) (h : familia ∉ knownFamilias) :
    getFamiliaConfig familia = getFamiliaConfig "machihembrada" := by
  simp only [knownFamilias, List.mem_cons, List.not_mem_nil, or_false, not_or] at h
  obtain ⟨h1, h2, h3, h4, h5, h6⟩ := h
  unfold getFamiliaConfig
  rw [if_neg h1, if_neg h2, if_neg h3, if_neg h4, if_neg h5]
  decide

/-- Witness for the amended C6 at the identifier "zanco". -/
theorem c6_amended_witness :
    ("zanco" ∉ knownFamilias) ∧
    getFamiliaConfig "zanco" = getFamiliaConfig "machihembrada" :=
  ⟨by decide, c6_amended "zanco" (by decide)⟩

/-- C7 counterexample: the zero-triangle buffer produces the empty
sub-mesh list, a normal return value; no error of any kind is raised
(the source has no throwing construct on this path). -/
theorem c7_counterexample : splitMeshByComponents ([] : List Tri) = [] := by decide

/-- C7 amended: a zero-triangle buffer yields an empty component list,
and the caller falls back to the single-piece display (`partes[0]` is
undefined, the moving group is empty, the start position is the default
(0, SEP, 0)); no InvalidGeometry error exists in the code. -/
theorem c7_amended :
    splitMeshByComponents ([] : List Tri) = [] ∧
    piezasManualSetup [] {} = ⟨none, [], [], ⟨0, SEP, 0⟩⟩ := by
  exact ⟨by decide, by decide⟩

/-- C8 counterexample: when the external CSG evaluator returns an
empty (degenerate) geometry without throwing, `buildCortadaGeo` returns
that empty geometry, not the uncut stock block: the `catch` only guards
throws, and no degeneracy check exists. -/
theorem c8_counterexample :
    buildCortadaGeo (fun _ => [dTri]) (fun _ _ => some ([] : List Tri)) (1, 1, 1)
      [⟨(1, 1, 1), (0, 0, 0)⟩] = [] ∧ [dTri] ≠ ([] : List Tri) := by
  exact ⟨rfl, by decide⟩

/-- C8 amended: if the boolean CSG evaluation throws at any cut, the
synthesizer returns the uncut stock block; a degenerate result returned
without throwing is passed through unchanged. -/
theorem c8_amended {G : Type} (mkBox : ℚ × ℚ × ℚ → G) (csgEval : G → Zona → Option G)
    (dims : ℚ × ℚ × ℚ) (eliminar : List Zona)
    (hthrow : csgFold csgEval (mkBox dims) eliminar = none) :
    buildCortadaGeo mkBox csgEval dims eliminar = mkBox dims := by
  unfold buildCortadaGeo
  rw [hthrow]

theorem axisCoord_vmin (ax : Axis) (u v : Vec3) :
    axisCoord ax (vmin u v) = min (axisCoord ax u) (axisCoord ax v) := by
  cases ax <;> rfl

theorem axisCoord_vmax (ax : Axis) (u v : Vec3) :
    axisCoord ax (vmax u v) = max (axisCoord ax u) (axisCoord ax v) := by
  cases ax <;> rfl

theorem mem_vertsOf {g : List Tri} {v : Vec3} :
    v ∈ vertsOf g ↔ ∃ t ∈ g, v = t.a ∨ v = t.b ∨ v = t.c := by
  unfold vertsOf
  rw [List.mem_flatMap]
  constructor
  · rintro ⟨t, ht, hv⟩
    exact ⟨t, ht, by simpa using hv⟩
  · rintro ⟨t, ht, hv⟩
    exact ⟨t, ht, by simpa using hv⟩

theorem vertsOf_ne_nil {g : List Tri} (h : g ≠ []) : vertsOf g ≠ [] := by
  cases g with
  | nil => exact absurd rfl h
  | cons t ts => simp [vertsOf]

theorem foldl_vmin_bound (ax : Axis) (lo : ℚ) (v : Vec3) (vs : List Vec3)
    (hv : lo ≤ axisCoord ax v) (hvs : ∀ u ∈ vs, lo ≤ axisCoord ax u) :
    lo ≤ axisCoord ax (vs.foldl vmin v) := by
  induction vs generalizing v with
  | nil => exact hv
  | cons u us ih =>
    refine ih (vmin v u) ?_ fun w hw => hvs w (List.mem_cons_of_mem u hw)
    rw [axisCoord_vmin, le_min_iff]
    exact ⟨hv, hvs u (List.mem_cons_self u us)⟩

theorem foldl_vmin_le (ax : Axis) (v : Vec3) (vs : List Vec3) :
    ∀ u ∈ v :: vs, axisCoord ax (vs.foldl vmin v) ≤ axisCoord ax u := by
  induction vs generalizing v with
  | nil =>
    intro u hu
    rcases List.mem_singleton.1 hu with rfl
    exact le_refl _
  | cons w ws ih =>
    intro u hu
    rcases List.mem_cons.1 hu with rfl | hu
    · refine le_trans (ih (vmin u w) _ (List.mem_cons_self _ _)) ?_
      rw [axisCoord_vmin]
      exact min_le_left _ _
    · rcases List.mem_cons.1 hu with rfl | hu
      · refine le_trans (ih (vmin v u) _ (List.mem_cons_self _ _)) ?_
        rw [axisCoord_vmin]
        exact min_le_right _ _
      · exact ih (vmin v w) u (List.mem_cons_of_mem _ hu)

theorem foldl_vmax_le (ax : Axis) (v : Vec3) (vs : List Vec3) :
    ∀ u ∈ v :: vs, axisCoord ax u ≤ axisCoord ax (vs.foldl vmax v) := by
  induction vs generalizing v with
  | nil =>
    intro u hu
    rcases List.mem_singleton.1 hu with rfl
    exact le_refl _
  | cons w ws ih =>
    intro u hu
    rcases List.mem_cons.1 hu with rfl | hu
    · refine le_trans ?_ (ih (vmax u w) _ (List.mem_cons_self _ _))
      rw [axisCoord_vmax]
      exact le_max_left _ _
    · rcases List.mem_cons.1 hu with rfl | hu
      · refine le_trans ?_ (ih (vmax v u) _ (List.mem_cons_self _ _))
        rw [axisCoord_vmax]
        exact le_max_right _ _
      · exact ih (vmax v w) u (List.mem_cons_of_mem _ hu)

theorem bboxOf_lo_le {g : List Tri} (ax : Axis) (hne : g ≠ []) (lo : ℚ)
    (h : ∀ v ∈ vertsOf g, lo ≤ axisCoord ax v) :
    lo ≤ axisCoord ax (bboxOf g).lo := by
  rcases hverts : vertsOf g with _ | ⟨v, vs⟩
  · exact absurd hverts (vertsOf_ne_nil hne)
  · unfold bboxOf
    rw [hverts]
    exact foldl_vmin_bound ax lo v vs (h v (hverts ▸ List.mem_cons_self v vs))
      fun u hu => h u (hverts ▸ List.mem_cons_of_mem v hu)

theorem bbox_coord_bounds {g : List Tri} (ax : Axis) {v : Vec3} (hv : v ∈ vertsOf g) :
    axisCoord ax (bboxOf g).lo ≤ axisCoord ax v ∧
      axisCoord ax v ≤ axisCoord ax (bboxOf g).hi := by
  rcases hverts : vertsOf g with _ | ⟨w, ws⟩
  · rw [hverts] at hv
    exact absurd hv (List.not_mem_nil v)
  · rw [hverts] at hv
    unfold bboxOf
    rw [hverts]
    exact ⟨foldl_vmin_le ax w ws v hv, foldl_vmax_le ax w ws v hv⟩

theorem vertsOf_map_mapTri (f : Vec3 → Vec3) (g : List Tri) :
    vertsOf (g.map (mapTri f)) = (vertsOf g).map f := by
  induction g with
  | nil => rfl
  | cons t ts ih =>
    simp [vertsOf, mapTri, List.flatMap_cons] at ih ⊢
    exact ih

theorem axisCoord_bboxCenter (ax : Axis) (b : BBox) :
    axisCoord ax (bboxCenter b) = (axisCoord ax b.lo + axisCoord ax b.hi) / 2 := by
  cases ax <;> rfl

theorem axisSize_le_maxDim (ax : Axis) (b : BBox) :
    axisCoord ax b.hi - axisCoord ax b.lo ≤ maxDim b := by
  unfold maxDim bboxSize
  cases ax
  · exact le_max_left _ _
  · exact le_trans (le_max_left _ _) (le_max_right _ _)
  · exact le_trans (le_max_right _ _) (le_max_right _ _)

theorem prepGeo_bound (tris0 : List Tri) (ax : Axis) (hdim : 0 < maxDim (bboxOf tris0)) :
    ∀ v ∈ vertsOf (prepGeo tris0),
      -(11 / 4 : ℚ) ≤ axisCoord ax v ∧ axisCoord ax v ≤ 11 / 4 := by
  intro v hv
  simp only [prepGeo] at hv
  rw [vertsOf_map_mapTri] at hv
  rcases List.mem_map.1 hv with ⟨w, hw, rfl⟩
  have hb := bbox_coord_bounds ax (g := tris0) hw
  set lo := axisCoord ax (bboxOf tris0).lo with hlo
  set hi := axisCoord ax (bboxOf tris0).hi with hhi
  have hsize : hi - lo ≤ maxDim (bboxOf tris0) := axisSize_le_maxDim ax (bboxOf tris0)
  have hcoord : axisCoord ax
      (⟨(w.x - (bboxCenter (bboxOf tris0)).x) * ((11 / 2 : ℚ) / maxDim (bboxOf tris0)),
        (w.y - (bboxCenter (bboxOf tris0)).y) * ((11 / 2 : ℚ) / maxDim (bboxOf tris0)),
        (w.z - (bboxCenter (bboxOf tris0)).z) * ((11 / 2 : ℚ) / maxDim (bboxOf tris0))⟩ : Vec3) =
      (axisCoord ax w - (lo + hi) / 2) * ((11 / 2 : ℚ) / maxDim (bboxOf tris0)) := by
    rw [hlo, hhi, ← axisCoord_bboxCenter]
    cases ax <;> rfl
  rw [hcoord]
  have hs0 : 0 ≤ (11 / 2 : ℚ) / maxDim (bboxOf tris0) := by positivity
  have hcancel : (11 / 2 : ℚ) / maxDim (bboxOf tris0) * maxDim (bboxOf tris0) = 11 / 2 :=
    div_mul_cancel₀ _ (ne_of_gt hdim)
  constructor
  · nlinarith [mul_le_mul_of_nonneg_right
      (show -(maxDim (bboxOf tris0) / 2) ≤ axisCoord ax w - (lo + hi) / 2 by linarith [hb.1])
      hs0]
  · nlinarith [mul_le_mul_of_nonneg_right
      (show axisCoord ax w - (lo + hi) / 2 ≤ maxDim (bboxOf tris0) / 2 by linarith [hb.2])
      hs0]

theorem mem_splitMeshByComponents {geo : List Tri} {g : List Tri} {t : Tri}
    (hg : g ∈ splitMeshByComponents geo) (ht : t ∈ g) : t ∈ geo := by
  unfold splitMeshByComponents at hg
  rcases List.mem_map.1 hg with ⟨idxg, hidx, rfl⟩
  have hidx2 : idxg ∈ splitIdx geo :=
    (sortByVolDesc_perm _ _).mem_iff.1 hidx
  unfold splitIdx componentsIdx at hidx2
  rcases List.mem_map.1 hidx2 with ⟨r, -, rfl⟩
  rcases List.mem_map.1 ht with ⟨i, hi, rfl⟩
  have hiT : i < geo.length := List.mem_range.1 (List.mem_of_mem_filter hi)
  exact getD_mem geo i dTri hiT

theorem mem_effectiveParts {geo : List Tri} {e : Ensamble} {g : List Tri} {t : Tri}
    (hg : g ∈ effectiveParts geo e) (ht : t ∈ g) : t ∈ geo := by
  unfold effectiveParts at hg
  by_cases hc : (splitMeshByComponents geo).length < 2 ∧ e.geoSplit = true
  · rw [if_pos hc] at hg
    unfold splitMeshGeometrically at hg
    rcases List.mem_cons.1 hg with rfl | hg
    · exact List.mem_of_mem_filter ht
    · rcases List.mem_singleton.1 (by simpa using hg) with rfl
      exact List.mem_of_mem_filter ht
  · rw [if_neg hc] at hg
    exact mem_splitMeshByComponents hg ht

theorem classifyPair_snd_mem {partes : List (List Tri)} {ax : Axis}
    (h : 2 ≤ partes.length) : (classifyPair partes ax).2 ∈ partes := by
  simp only [classifyPair]
  split_ifs <;>
    first
      | exact getD_mem partes 1 [] (by omega)
      | exact getD_mem partes 0 [] (by omega)

theorem startPosOf_coord (ax : Axis) (hax : ax ≠ Axis.x) (gA gB : List Tri) :
    axisCoord ax (startPosOf ax gA gB) = axisCoord ax (bboxOf gA).hi + SEP := by
  cases ax
  · exact absurd rfl hax
  · simp [startPosOf, axisCoord]
  · simp [startPosOf, axisCoord]

theorem iterate_lt {n : Nat} {p : Nat → Nat} (hlt : ∀ i, i < n → p i < n) {a : Nat}
    (ha : a < n) : ∀ k, p^[k] a < n := by
  intro k
  induction k with
  | zero => simpa using ha
  | succ k ih =>
    rw [Function.iterate_succ_apply']
    exact hlt _ ih

theorem term_of_self {p : Nat → Nat} {a : Nat} (h : p a = a) : Term p a := by
  rw [Term, h, h]

theorem good_reach {n : Nat} {p C : Nat → Nat} (g : Good n p C) {a : Nat} (ha : a < n) :
    ∃ k ≤ n, Term p (p^[k] a) := by
  have key : ∀ k1 k2, k1 < k2 → k2 ≤ n → p^[k1] a = p^[k2] a →
      ∃ k ≤ n, Term p (p^[k] a) := by
    intro k1 k2 hlt hle heq
    refine ⟨k1, by omega, ?_⟩
    refine g.cyc _ (iterate_lt g.lt ha k1) (k2 - k1 - 1) ?_
    have hadd : p^[k2 - k1] (p^[k1] a) = p^[k2] a := by
      rw [← Function.iterate_add_apply]
      congr 1
      omega
    rw [show k2 - k1 - 1 + 1 = k2 - k1 by omega, hadd, ← heq]
  have hmap : ∀ k ∈ Finset.range (n + 1), p^[k] a ∈ Finset.range n := fun k _ =>
    Finset.mem_range.2 (iterate_lt g.lt ha k)
  obtain ⟨k1, hk1, k2, hk2, hne, heq⟩ :=
    Finset.exists_ne_map_eq_of_card_lt_of_maps_to (by simp) hmap
  rcases Nat.lt_or_ge k1 k2 with h | h
  · exact key k1 k2 h (Nat.lt_succ_iff.1 (Finset.mem_range.1 hk2)) heq
  · have hne2 : k2 < k1 := lt_of_le_of_ne h (Ne.symm hne)
    exact key k2 k1 hne2 (Nat.lt_succ_iff.1 (Finset.mem_range.1 hk1)) heq.symm

theorem path_avoids {n : Nat} {p C : Nat → Nat} (g : Good n p C) {a : Nat} (ha : a < n)
    (hnt : ¬ Term p a) : ∀ k, p^[k] (p a) ≠ a := by
  intro k h
  exact hnt (g.cyc a ha k (by rw [Function.iterate_succ_apply]; exact h))

theorem iterate_update_of_ne {p : Nat → Nat} {a v w : Nat}
    (h : ∀ k, p^[k] w ≠ a) : ∀ k, (Function.update p a v)^[k] w = p^[k] w := by
  intro k
  induction k with
  | zero => rfl
  | succ k ih =>
    rw [Function.iterate_succ_apply', Function.iterate_succ_apply', ih,
      Function.update_noteq (h k)]

theorem iterate_rotate {q : Nat → Nat} {i x : Nat} {m j : Nat}
    (hcyc : q^[m + 1] i = i) (hx : q^[j] i = x) : q^[m + 1] x = x := by
  rw [← hx, ← Function.iterate_add_apply, Nat.add_comm, Function.iterate_add_apply, hcyc]

theorem good_halve {n : Nat} {p C : Nat → Nat} (g : Good n p C) {a : Nat} (ha : a < n)
    (hpa : p a ≠ a) (hnt : ¬ Term p a) :
    Good n (Function.update p a (p (p a))) C ∧
    (∀ x, x < n → (Term (Function.update p a (p (p a))) x ↔ Term p x)) := by
  set gpa := p (p a) with hgpa
  set p2 := Function.update p a gpa with hp2
  have havoid : ∀ k, p^[k] gpa ≠ a := by
    intro k
    have hk : p^[k] gpa = p^[k + 1] (p a) := by
      rw [hgpa, Function.iterate_succ_apply]
    rw [hk]
    exact path_avoids g ha hnt (k + 1)
  have hgpa_ne_a : gpa ≠ a := fun h => hnt h
  have hup_same : p2 a = gpa := by rw [hp2]; simp
  have hup_ne : ∀ x, x ≠ a → p2 x = p x := fun x hx => by
    rw [hp2]; exact Function.update_noteq hx _ _
  have hp2gpa : ∀ k, p2^[k] gpa = p^[k] gpa := iterate_update_of_ne havoid
  have hnocyc_a : ∀ m, p2^[m + 1] a ≠ a := by
    intro m h
    have h1 : p2^[m + 1] a = p2^[m] gpa := by
      rw [Function.iterate_succ_apply, hup_same]
    rw [h1, hp2gpa] at h
    exact havoid m h
  have hterm_a : ¬ Term p2 a := by
    intro h2
    rw [Term, hup_same, hup_ne gpa hgpa_ne_a] at h2
    exact havoid 1 (by simpa using h2)
  have hterm : ∀ x, x < n → (Term p2 x ↔ Term p x) := by
    intro x hx
    by_cases hxa : x = a
    · rw [hxa]
      exact ⟨fun h => absurd h hterm_a, fun h => absurd h hnt⟩
    · have h1 : p2 x = p x := hup_ne x hxa
      by_cases hpx : p x = a
      · have notTp : ¬ Term p x := by
          intro h2
          rw [Term, hpx] at h2
          exact hnt (by rw [Term, h2, hpx])
        have notTp2 : ¬ Term p2 x := by
          intro h2
          rw [Term, h1, hpx, hup_same] at h2
          apply havoid 1
          simpa [h2] using hpx
        exact ⟨fun h => absurd h notTp2, fun h => absurd h notTp⟩
      · rw [Term, Term, h1, hup_ne _ hpx]
  refine ⟨⟨?_, ?_, ?_, ?_, ?_⟩, hterm⟩
  · intro i hi
    have hia : i ≠ a := fun h => absurd (h ▸ hi) (Nat.not_le.2 ha)
    rw [hup_ne i hia]
    exact g.idOut i hi
  · intro i hi
    by_cases hia : i = a
    · rw [hia, hup_same]
      exact g.lt _ (g.lt _ ha)
    · rw [hup_ne i hia]
      exact g.lt i hi
  · intro i
    by_cases hia : i = a
    · rw [hia, hup_same, hgpa, g.edge, g.edge]
    · rw [hup_ne i hia, g.edge]
  · intro i hi m hcyc
    have hnota : ∀ j, p2^[j] i ≠ a := by
      intro j h
      exact hnocyc_a m (iterate_rotate hcyc h)
    have htrans : ∀ j, p2^[j] i = p^[j] i := by
      intro j
      induction j with
      | zero => rfl
      | succ j ih =>
        rw [Function.iterate_succ_apply', Function.iterate_succ_apply', ih,
          ← ih, hup_ne _ (hnota j), ih]
    have hcycp : p^[m + 1] i = i := by rw [← htrans]; exact hcyc
    exact (hterm i hi).2 (g.cyc i hi m hcycp)
  · intro i hi j hj hti htj hcij
    have hti2 := (hterm i hi).1 hti
    have htj2 := (hterm j hj).1 htj
    have hia : i ≠ a := fun h => hnt (h ▸ hti2)
    rcases g.tuniq i hi j hj hti2 htj2 hcij with h | h
    · exact Or.inl h
    · right
      rw [hup_ne i hia]
      exact h

theorem findOut_repair {n : Nat} {p C : Nat → Nat} (g : Good n p C) {a : Nat} (ha : a < n)
    (hpa : p a ≠ a) (ht : Term p a) :
    FindOut n C p a (Function.update p a a, a) := by
  have hpv : p (p a) = a := ht
  set p2 := Function.update p a a with hp2
  have hup_same : p2 a = a := by rw [hp2]; simp
  have hup_ne : ∀ x, x ≠ a → p2 x = p x := fun x hx => by
    rw [hp2]; exact Function.update_noteq hx _ _
  have hfix : ∀ k, p2^[k] a = a := fun k => Function.iterate_fixed hup_same k
  have htermc : ∀ j, (Term p2 j ↔ (j = a ∨ (Term p j ∧ p j ≠ a))) := by
    intro j
    by_cases hja : j = a
    · rw [hja]
      constructor
      · intro _
        exact Or.inl rfl
      · intro _
        rw [Term, hup_same, hup_same]
    · have h1 : p2 j = p j := hup_ne j hja
      by_cases hpj : p j = a
      · constructor
        · intro h2
          exfalso
          rw [Term, h1, hpj, hup_same] at h2
          exact hja h2.symm
        · rintro (h | ⟨_, h3⟩)
          · exact absurd h hja
          · exact absurd hpj h3
      · rw [Term, Term, h1, hup_ne _ hpj]
        constructor
        · intro h
          exact Or.inr ⟨h, hpj⟩
        · rintro (h | ⟨h2, _⟩)
          · exact absurd h hja
          · exact h2
  have hgood : Good n p2 C := by
    refine ⟨?_, ?_, ?_, ?_, ?_⟩
    · intro i hi
      have hia : i ≠ a := fun h => absurd (h ▸ hi) (Nat.not_le.2 ha)
      rw [hup_ne i hia]
      exact g.idOut i hi
    · intro i hi
      by_cases hia : i = a
      · rw [hia, hup_same]
        exact ha
      · rw [hup_ne i hia]
        exact g.lt i hi
    · intro i
      by_cases hia : i = a
      · rw [hia, hup_same]
      · rw [hup_ne i hia, g.edge]
    · intro i hi m hcyc
      by_cases hhit : ∃ j, p2^[j] i = a
      · obtain ⟨j, hj⟩ := hhit
        have hq : ∀ q, p2^[q * (m + 1)] i = i := by
          intro q
          induction q with
          | zero => simp
          | succ q ih =>
            rw [Nat.succ_mul, Nat.add_comm, Function.iterate_add_apply, ih, hcyc]
        have hle : j ≤ j * (m + 1) := Nat.le_mul_of_pos_right j (Nat.succ_pos m)
        have hia : i = a := by
          have h1 : p2^[j * (m + 1) - j] (p2^[j] i) = i := by
            rw [← Function.iterate_add_apply]
            rw [show j * (m + 1) - j + j = j * (m + 1) by omega]
            exact hq j
          rw [hj, hfix] at h1
          exact h1.symm
        rw [hia]
        rw [htermc]
        exact Or.inl rfl
      · push_neg at hhit
        have htrans : ∀ j, p2^[j] i = p^[j] i := by
          intro j
          induction j with
          | zero => rfl
          | succ j ih =>
            rw [Function.iterate_succ_apply', Function.iterate_succ_apply', ← ih,
              hup_ne _ (hhit j), ih]
        have hcycp : p^[m + 1] i = i := by rw [← htrans]; exact hcyc
        have hterm := g.cyc i hi m hcycp
        rw [htermc]
        refine Or.inr ⟨hterm, ?_⟩
        intro hpi
        exact hhit 1 (by rw [htrans 1]; simpa using hpi)
    · intro i hi j hj hti htj hcij
      rcases (htermc i).1 hti with hia | ⟨hti2, hpi⟩
      · rcases (htermc j).1 htj with hja | ⟨htj2, hpj⟩
        · exact Or.inl (hja.trans hia.symm)
        · rcases g.tuniq a ha j hj ht htj2 (by rw [← hia]; exact hcij) with h | h
          · exact Or.inl (h.trans hia.symm)
          · exact absurd (show p j = a by rw [h]; exact hpv) hpj
      · rcases (htermc j).1 htj with hja | ⟨htj2, hpj⟩
        · rcases g.tuniq i hi a ha hti2 ht (by rw [hja] at hcij; exact hcij) with h | h
          · exact Or.inl (hja.trans h)
          · exact absurd h.symm hpi
        · rcases g.tuniq i hi j hj hti2 htj2 hcij with h | h
          · exact Or.inl h
          · by_cases hia : i = a
            · exfalso
              apply hpj
              rw [h, hia, hpv]
            · right
              rw [hup_ne i hia]
              exact h
  refine ⟨hgood, ha, rfl, hup_same, ht, ?_, ?_, ?_⟩
  · intro x hx
    have hxa : x ≠ a := fun h => hx (by rw [h])
    exact hup_ne x hxa
  · intro j x hj hx
    have hxa : x ≠ a := by
      intro h
      rw [h] at hx
      have hja : p (p a) = a := hpv
      rw [hx] at hja
      rw [hj] at hja
      rw [hja] at hx
      exact hpa hx
    show p2 x = j
    rw [hup_ne x hxa]
    exact hx
  · intro j hj hcj htj
    show j = a
    rcases (htermc j).1 htj with hja | ⟨htj2, hpj⟩
    · exact hja
    · rcases g.tuniq j hj a ha htj2 ht hcj with h | h
      · exact h.symm
      · exact absurd h.symm hpj


theorem gpa_avoids {n : Nat} {p C : Nat → Nat} (g : Good n p C) {a : Nat} (ha : a < n)
    (hnt : ¬ Term p a) : ∀ k, p^[k] (p (p a)) ≠ a := by
  intro k
  have hk : p^[k] (p (p a)) = p^[k + 1] (p a) := by rw [Function.iterate_succ_apply]
  rw [hk]
  exact path_avoids g ha hnt (k + 1)

theorem findOut_comp {n : Nat} {p C : Nat → Nat} (g : Good n p C) {a : Nat} (ha : a < n)
    (hpa : p a ≠ a) (hnt : ¬ Term p a) {out : (Nat → Nat) × Nat}
    (h2 : FindOut n C (Function.update p a (p (p a))) (p (p a)) out) :
    FindOut n C p a out := by
  set gpa := p (p a) with hgpa
  set p2 := Function.update p a gpa with hp2
  have hterm := (good_halve g ha hpa hnt).2
  have hCgpa : C gpa = C a := by rw [hgpa, g.edge, g.edge]
  have hup_same : p2 a = gpa := by rw [hp2]; simp
  have hup_ne : ∀ x, x ≠ a → p2 x = p x := fun x hx => by
    rw [hp2]; exact Function.update_noteq hx _ _
  refine ⟨h2.good, h2.rlt, ?_, h2.rroot, ?_, ?_, ?_, ?_⟩
  · rw [h2.rclass, hCgpa]
  · exact (hterm out.2 h2.rlt).1 h2.rterm
  · intro x hx
    have hxg : C x ≠ C gpa := by rw [hCgpa]; exact hx
    have hxa : x ≠ a := fun h => hx (by rw [h])
    rw [h2.other x hxg, hup_ne x hxa]
  · intro j x hj hx
    have hja : j ≠ a := fun h => hpa (h ▸ hj)
    have hp2j : p2 j = j := by rw [hup_ne j hja]; exact hj
    have hp2x : p2 x = j := by
      by_cases hxa : x = a
      · rw [hxa, hup_same, hgpa]
        rw [hxa] at hx
        rw [hx]
        exact hj
      · rw [hup_ne x hxa]
        exact hx
    exact h2.rootedge j x hp2j hp2x
  · intro j hj hcj htj
    exact h2.uniq j hj (hcj.trans hCgpa.symm) htj

theorem findH_spec {n : Nat} {C : Nat → Nat} :
    ∀ (k : Nat) (p : Nat → Nat) (a fuel : Nat), Good n p C → a < n →
      Term p (p^[k] a) → k + 2 ≤ fuel → FindOut n C p a (findH fuel p a) := by
  intro k
  induction k using Nat.strong_induction_on with
  | _ k IH =>
  intro p a fuel g ha hk hfuel
  obtain ⟨f, rfl⟩ : ∃ f, fuel = f + 1 := ⟨fuel - 1, by omega⟩
  rw [findH]
  by_cases hpa : p a = a
  · rw [if_pos hpa]
    refine ⟨g, ha, rfl, hpa, term_of_self hpa, fun _ _ => rfl, fun j x hj hx => hx, ?_⟩
    intro j hj hcj htj
    show j = a
    rcases g.tuniq j hj a ha htj (term_of_self hpa) hcj with h | h
    · exact h.symm
    · have hterm : p (p j) = j := htj
      rw [← h, hpa] at hterm
      exact hterm.symm
  · rw [if_neg hpa]
    by_cases ht : Term p a
    · have hgpa_eq : p (p a) = a := ht
      rw [hgpa_eq]
      obtain ⟨f2, rfl⟩ : ∃ f2, f = f2 + 1 := ⟨f - 1, by omega⟩
      rw [findH]
      rw [if_pos (by simp : Function.update p a a a = a)]
      exact findOut_repair g ha hpa ht
    · have hk1 : 1 ≤ k := by
        rcases Nat.eq_zero_or_pos k with h0 | h1
        · exfalso
          apply ht
          simpa [h0] using hk
        · exact h1
      obtain ⟨g2, hterm⟩ := good_halve g ha hpa ht
      have hgpa_lt : p (p a) < n := g.lt _ (g.lt _ ha)
      by_cases hk2 : k = 1
      · have h1 : Term p (p a) := by simpa [hk2] using hk
        have h2 : Term p (p (p a)) := by
          have h3 := congrArg p h1
          exact h3
        have h4 : Term (Function.update p a (p (p a))) ((Function.update p a (p (p a)))^[0]
            (p (p a))) := by
          simpa using (hterm _ hgpa_lt).2 h2
        exact findOut_comp g ha hpa ht
          (IH 0 (by omega) (Function.update p a (p (p a))) (p (p a)) f g2 hgpa_lt h4 (by omega))
      · have hkk : 2 ≤ k := by omega
        have havoid := gpa_avoids g ha ht
        have htr : (Function.update p a (p (p a)))^[k - 2] (p (p a)) = p^[k] a := by
          rw [iterate_update_of_ne havoid]
          have : p^[k - 2] (p^[2] a) = p^[k] a := by
            rw [← Function.iterate_add_apply]
            congr 1
            omega
          simpa using this
        have h4 : Term (Function.update p a (p (p a)))
            ((Function.update p a (p (p a)))^[k - 2] (p (p a))) := by
          rw [htr]
          exact (hterm _ (iterate_lt g.lt ha k)).2 hk
        exact findOut_comp g ha hpa ht
          (IH (k - 2) (by omega) (Function.update p a (p (p a))) (p (p a)) f g2 hgpa_lt h4
            (by omega))

theorem find_stab {n : Nat} {p C : Nat → Nat} (g : Good n p C) {x r fuel : Nat}
    (hx : x < n) (hfuel : n + 2 ≤ fuel) (hr : r < n) (hroot : p r = r)
    (huniq : ∀ j, j < n → C j = C r → Term p j → j = r) :
    (findH fuel p x).1 r = r ∧ Good n (findH fuel p x).1 C ∧
    (∀ j, j < n → C j = C r → Term (findH fuel p x).1 j → j = r) := by
  obtain ⟨k, hk, hterm⟩ := good_reach g hx
  have O := findH_spec k p x fuel g hx hterm (by omega)
  by_cases hC : C x = C r
  · have hO2 : (findH fuel p x).2 = r := huniq _ O.rlt (O.rclass.trans hC) O.rterm
    refine ⟨hO2 ▸ O.rroot, O.good, ?_⟩
    intro j hj hcj htj
    rw [← hO2]
    exact O.uniq j hj (hcj.trans hC.symm) htj
  · have hother : ∀ j, C j = C r → (findH fuel p x).1 j = p j := by
      intro j hj
      refine O.other j fun h => hC ?_
      rw [← h, hj]
    refine ⟨by rw [hother r rfl]; exact hroot, O.good, ?_⟩
    intro j hj hcj htj
    have h1 : (findH fuel p x).1 j = p j := hother j hcj
    have h2 : (findH fuel p x).1 (p j) = p (p j) := hother (p j) (by rw [g.edge]; exact hcj)
    have hT : Term p j := by
      rw [Term, ← h2, ← h1]
      exact htj
    exact huniq j hj hcj hT

theorem eqvGen_nil {i j : Nat} : Relation.EqvGen (PairRel []) i j ↔ i = j := by
  constructor
  · intro h
    induction h with
    | rel x y h => exact absurd h (List.not_mem_nil _)
    | refl x => rfl
    | symm x y _ ih => exact ih.symm
    | trans x y z _ _ ih1 ih2 => exact ih1.trans ih2
  · rintro rfl
    exact Relation.EqvGen.refl i

theorem classesEq_nil : ClassesEq id [] := by
  intro i j
  rw [eqvGen_nil]
  exact Iff.rfl

theorem eqvGen_mono_append {ps qs : List (Nat × Nat)} {i j : Nat}
    (h : Relation.EqvGen (PairRel ps) i j) : Relation.EqvGen (PairRel (ps ++ qs)) i j :=
  Relation.EqvGen.mono (fun u v huv => List.mem_append_left qs huv) h

theorem classesEq_absorb {C : Nat → Nat} {ps : List (Nat × Nat)} {a b : Nat}
    (h : ClassesEq C ps) (hab : C a = C b) : ClassesEq C (ps ++ [(a, b)]) := by
  intro i j
  constructor
  · intro hc
    exact eqvGen_mono_append ((h i j).1 hc)
  · intro he
    induction he with
    | rel x y hxy =>
      have hxy2 : (x, y) ∈ ps ++ [(a, b)] := hxy
      rcases List.mem_append.1 hxy2 with hold | hnew
      · exact (h x y).2 (Relation.EqvGen.rel x y hold)
      · cases List.mem_singleton.1 hnew
        exact hab
    | refl x => rfl
    | symm x y _ ih => exact ih.symm
    | trans x y z _ _ ih1 ih2 => exact ih1.trans ih2

theorem mergeC_point {C : Nat → Nat} {a b u v : Nat} (h : C u = C v) :
    mergeC C a b u = mergeC C a b v := by
  unfold mergeC
  rw [h]

theorem mergeC_left {C : Nat → Nat} {a b : Nat} : mergeC C a b a = C b := by
  unfold mergeC
  rw [if_pos rfl]

theorem mergeC_right {C : Nat → Nat} {a b : Nat} : mergeC C a b b = C b := by
  unfold mergeC
  split_ifs <;> rfl

theorem mergeC_of_ne {C : Nat → Nat} {a b i : Nat} (h : C i ≠ C a) : mergeC C a b i = C i :=
  if_neg h

theorem mergeC_eq_iff {C : Nat → Nat} {a b i j : Nat} :
    mergeC C a b i = mergeC C a b j ↔
      (C i = C j ∨ (C i = C a ∧ C j = C b) ∨ (C i = C b ∧ C j = C a)) := by
  unfold mergeC
  constructor
  · intro h
    by_cases hi : C i = C a
    · by_cases hj : C j = C a
      · exact Or.inl (hi.trans hj.symm)
      · rw [if_pos hi, if_neg hj] at h
        exact Or.inr (Or.inl ⟨hi, h.symm⟩)
    · by_cases hj : C j = C a
      · rw [if_neg hi, if_pos hj] at h
        exact Or.inr (Or.inr ⟨h, hj⟩)
      · rw [if_neg hi, if_neg hj] at h
        exact Or.inl h
  · rintro (h | ⟨h1, h2⟩ | ⟨h1, h2⟩)
    · rw [h]
    · rw [if_pos h1]
      by_cases hj : C j = C a
      · rw [if_pos hj]
      · rw [if_neg hj, h2]
    · rw [if_pos h2]
      by_cases hi : C i = C a
      · rw [if_pos hi]
      · rw [if_neg hi, h1]

theorem classesEq_merge {C : Nat → Nat} {ps : List (Nat × Nat)} (a b : Nat)
    (h : ClassesEq C ps) : ClassesEq (mergeC C a b) (ps ++ [(a, b)]) := by
  have hrel : Relation.EqvGen (PairRel (ps ++ [(a, b)])) a b :=
    Relation.EqvGen.rel a b (List.mem_append_right ps (List.mem_singleton_self _))
  intro i j
  constructor
  · intro hc
    rcases mergeC_eq_iff.1 hc with hc2 | ⟨h1, h2⟩ | ⟨h1, h2⟩
    · exact eqvGen_mono_append ((h i j).1 hc2)
    · exact (eqvGen_mono_append ((h i a).1 h1)).trans _ _ _
        (hrel.trans _ _ _ (eqvGen_mono_append ((h b j).1 h2.symm)))
    · exact (eqvGen_mono_append ((h i b).1 h1)).trans _ _ _
        ((hrel.symm _ _).trans _ _ _ (eqvGen_mono_append ((h a j).1 h2.symm)))
  · intro he
    induction he with
    | rel x y hxy =>
      have hxy2 : (x, y) ∈ ps ++ [(a, b)] := hxy
      rcases List.mem_append.1 hxy2 with hold | hnew
      · exact mergeC_point ((h x y).2 (Relation.EqvGen.rel x y hold))
      · cases List.mem_singleton.1 hnew
        rw [mergeC_left, mergeC_right]
    | refl x => rfl
    | symm x y _ ih => exact ih.symm
    | trans x y z _ _ ih1 ih2 => exact ih1.trans ih2

theorem findOut_of_good {n : Nat} {p C : Nat → Nat} (g : Good n p C) {a fuel : Nat}
    (ha : a < n) (hfuel : n + 2 ≤ fuel) : FindOut n C p a (findH fuel p a) := by
  obtain ⟨k, hk, hterm⟩ := good_reach g ha
  exact findH_spec k p a fuel g ha hterm (by omega)

theorem good_id (n : Nat) : Good n id id :=
  ⟨fun i _ => rfl, fun i hi => hi, fun i => rfl, fun i _ _ _ => rfl,
   fun i _ j _ _ _ hC => Or.inl hC.symm⟩

theorem stable_find {n : Nat} {p C : Nat → Nat} (g : Good n p C) {x r fuel : Nat}
    (hx : x < n) (hfuel : n + 2 ≤ fuel) (hs : Stable n p C r) :
    Stable n (findH fuel p x).1 C r :=
  ⟨hs.1, (find_stab g hx hfuel hs.1 hs.2.1 hs.2.2).1,
   (find_stab g hx hfuel hs.1 hs.2.1 hs.2.2).2.2⟩

theorem mergeC_congr {C : Nat → Nat} {a b a2 b2 : Nat} (ha : C a = C a2) (hb : C b = C b2) :
    mergeC C a b = mergeC C a2 b2 := by
  funext i
  unfold mergeC
  rw [ha, hb]

theorem term_union_iff {p : Nat → Nat} {ra rb : Nat} (hra : p ra = ra) (hrb : p rb = rb)
    (hne : ra ≠ rb) (j : Nat) :
    Term (Function.update p ra rb) j ↔ (Term p j ∧ j ≠ ra) := by
  have hsame : Function.update p ra rb ra = rb := by simp
  have hother : ∀ x, x ≠ ra → Function.update p ra rb x = p x := fun x hx =>
    Function.update_noteq hx _ _
  constructor
  · intro htj
    by_cases hj : j = ra
    · exfalso
      rw [hj] at htj
      rw [Term, hsame, hother rb (Ne.symm hne), hrb] at htj
      exact hne htj.symm
    · refine ⟨?_, hj⟩
      by_cases hpj : p j = ra
      · exfalso
        rw [Term, hother j hj, hpj, hsame] at htj
        rw [← htj] at hpj
        rw [hrb] at hpj
        exact hne hpj.symm
      · rw [Term, hother j hj, hother _ hpj] at htj
        exact htj
  · rintro ⟨htj, hj⟩
    have hpj : p j ≠ ra := by
      intro h
      apply hj
      have h2 : p (p j) = j := htj
      rw [h, hra] at h2
      exact h2.symm
    rw [Term, hother j hj, hother _ hpj]
    exact htj

theorem good_union {n : Nat} {p C : Nat → Nat} (g : Good n p C) {ra rb : Nat}
    (hra : ra < n) (hrb : rb < n) (hpra : p ra = ra) (hprb : p rb = rb)
    (hCne : C ra ≠ C rb)
    (huniqa : ∀ j, j < n → C j = C ra → Term p j → j = ra) :
    Good n (Function.update p ra rb) (mergeC C ra rb) ∧
    (∀ j, j < n → mergeC C ra rb j = C rb → Term (Function.update p ra rb) j → j = rb) := by
  have hne : ra ≠ rb := fun h => hCne (by rw [h])
  have hsame : Function.update p ra rb ra = rb := by simp
  have hother : ∀ x, x ≠ ra → Function.update p ra rb x = p x := fun x hx =>
    Function.update_noteq hx _ _
  have htiff := term_union_iff hpra hprb hne
  have huniq2 : ∀ j, j < n → mergeC C ra rb j = C rb → Term (Function.update p ra rb) j →
      j = rb := by
    intro j hj hcj htj
    obtain ⟨htpj, hjra⟩ := (htiff j).1 htj
    by_cases hC : C j = C ra
    · exact absurd (huniqa j hj hC htpj) hjra
    · rw [mergeC_of_ne hC] at hcj
      rcases g.tuniq j hj rb hrb htpj (term_of_self hprb) hcj with h | h
      · exact h.symm
      · have h2 : p (p j) = j := htpj
        rw [← h, hprb] at h2
        exact h2.symm
  refine ⟨⟨?_, ?_, ?_, ?_, ?_⟩, huniq2⟩
  · intro i hi
    have hira : i ≠ ra := fun h => by rw [h] at hi; omega
    rw [hother i hira]
    exact g.idOut i hi
  · intro i hi
    by_cases hira : i = ra
    · rw [hira, hsame]
      exact hrb
    · rw [hother i hira]
      exact g.lt i hi
  · intro i
    by_cases hira : i = ra
    · rw [hira, hsame, mergeC_right, mergeC_left]
    · rw [hother i hira]
      exact mergeC_point (g.edge i)
  · intro i hi m hcyc
    set q := Function.update p ra rb with hq
    have hrb_fix : ∀ k, q^[k] rb = rb := by
      intro k
      induction k with
      | zero => rfl
      | succ k ih =>
        rw [Function.iterate_succ_apply', ih, hother rb (Ne.symm hne), hprb]
    have hra_absorb : ∀ k, q^[k + 1] ra = rb := by
      intro k
      rw [Function.iterate_succ_apply, hsame]
      exact hrb_fix k
    have havoid : ∀ k, k < m + 1 → q^[k] i ≠ ra := by
      intro k hk h
      have h1 : q^[m + 1 - k] (q^[k] i) = q^[m + 1] i := by
        rw [← Function.iterate_add_apply]
        congr 1
        omega
      have hmk : m + 1 - k = (m - k) + 1 := by omega
      rw [h, hmk, hra_absorb (m - k)] at h1
      rw [hcyc] at h1
      rw [← h1, hrb_fix k] at h
      exact hne h.symm
    have hir : i ≠ ra := by simpa using havoid 0 (by omega)
    have hiter : ∀ k, k ≤ m + 1 → q^[k] i = p^[k] i := by
      intro k
      induction k with
      | zero => intro _; rfl
      | succ k ih =>
        intro hk
        have hk2 : k ≤ m + 1 := by omega
        have hne2 : p^[k] i ≠ ra := by
          rw [← ih hk2]
          exact havoid k (by omega)
        rw [Function.iterate_succ_apply', Function.iterate_succ_apply', ih hk2, hother _ hne2]
    have hpcyc : p^[m + 1] i = i := by
      rw [← hiter (m + 1) (le_refl _)]
      exact hcyc
    have htpi : Term p i := g.cyc i hi m hpcyc
    rcases Nat.eq_zero_or_pos m with hm | hm
    · subst hm
      have hfix : q i = i := by simpa using hcyc
      exact term_of_self hfix
    · have h1 := havoid 1 (by omega)
      rw [hiter 1 (by omega), Function.iterate_one] at h1
      rw [Term, hother i hir, hother _ h1]
      exact htpi
  · intro i hi j hj hti htj hC
    obtain ⟨htpi, hira⟩ := (htiff i).1 hti
    obtain ⟨htpj, hjra⟩ := (htiff j).1 htj
    rw [hother i hira]
    rcases mergeC_eq_iff.1 hC with h | ⟨h1, h2⟩ | ⟨h1, h2⟩
    · exact g.tuniq i hi j hj htpi htpj h
    · exact absurd (huniqa i hi h1 htpi) hira
    · exact absurd (huniqa j hj h2 htpj) hjra

theorem good_stale {n : Nat} {q C : Nat → Nat} (g : Good n q C) {u v : Nat}
    (hu : u < n) (hv : v < n) (hne : u ≠ v) (hqu : q u = u) (hqv : q v = u)
    (hCuv : C u = C v)
    (huniq : ∀ j, j < n → C j = C u → Term q j → j = u) :
    Good n (Function.update q u v) C := by
  set p6 := Function.update q u v with hp6
  have hsame : p6 u = v := by
    rw [hp6]
    simp
  have hother : ∀ x, x ≠ u → p6 x = q x := fun x hx => by
    rw [hp6]
    exact Function.update_noteq hx _ _
  have hp6v : p6 v = u := by rw [hother v (Ne.symm hne), hqv]
  have htu : Term p6 u := by rw [Term, hsame, hp6v]
  have htv : Term p6 v := by rw [Term, hp6v, hsame]
  have hpair : ∀ k x, x = u ∨ x = v → p6^[k] x = u ∨ p6^[k] x = v := by
    intro k
    induction k with
    | zero =>
      intro x hx
      simpa using hx
    | succ k ih =>
      intro x hx
      rw [Function.iterate_succ_apply]
      rcases hx with hx | hx
      · rw [hx]
        exact ih (p6 u) (Or.inr hsame)
      · rw [hx]
        exact ih (p6 v) (Or.inl hp6v)
  have hterm_iff : ∀ j, j ≠ u → j ≠ v → (Term p6 j ↔ Term q j) := by
    intro j hju hjv
    constructor
    · intro h
      by_cases hqj : q j = u
      · exfalso
        rw [Term, hother j hju, hqj, hsame] at h
        exact hjv h.symm
      · rw [Term, hother j hju, hother _ hqj] at h
        exact h
    · intro h
      have hqj : q j ≠ u := by
        intro he
        apply hju
        have h2 : q (q j) = j := h
        rw [he, hqu] at h2
        exact h2.symm
      rw [Term, hother j hju, hother _ hqj]
      exact h
  refine ⟨?_, ?_, ?_, ?_, ?_⟩
  · intro i hi
    have hiu : i ≠ u := fun h => by rw [h] at hi; omega
    rw [hother i hiu]
    exact g.idOut i hi
  · intro i hi
    by_cases hiu : i = u
    · rw [hiu, hsame]
      exact hv
    · rw [hother i hiu]
      exact g.lt i hi
  · intro i
    by_cases hiu : i = u
    · rw [hiu, hsame]
      exact hCuv.symm
    · rw [hother i hiu]
      exact g.edge i
  · intro i hi m hcyc
    by_cases hhit : ∃ k, k ≤ m + 1 ∧ (p6^[k] i = u ∨ p6^[k] i = v)
    · obtain ⟨k, hk, hx⟩ := hhit
      have h1 : p6^[m + 1 - k] (p6^[k] i) = i := by
        rw [← Function.iterate_add_apply]
        rw [show m + 1 - k + k = m + 1 by omega]
        exact hcyc
      have h2 : i = u ∨ i = v := by
        rcases hpair (m + 1 - k) _ hx with h | h
        · exact Or.inl (h1 ▸ h)
        · exact Or.inr (h1 ▸ h)
      rcases h2 with rfl | rfl
      · exact htu
      · exact htv
    · push_neg at hhit
      have hiter : ∀ k, k ≤ m + 1 → p6^[k] i = q^[k] i := by
        intro k
        induction k with
        | zero => intro _; rfl
        | succ k ih =>
          intro hk
          have h1 := hhit k (by omega)
          have hne2 : q^[k] i ≠ u := by
            rw [← ih (by omega)]
            exact h1.1
          rw [Function.iterate_succ_apply', Function.iterate_succ_apply', ih (by omega),
            hother _ hne2]
      have hqcyc : q^[m + 1] i = i := by
        rw [← hiter (m + 1) (le_refl _)]
        exact hcyc
      have htqi : Term q i := g.cyc i hi m hqcyc
      have h0 := hhit 0 (by omega)
      have hiu : i ≠ u := by simpa using h0.1
      have hiv : i ≠ v := by simpa using h0.2
      exact (hterm_iff i hiu hiv).2 htqi
  · intro i hi j hj hti htj hC
    by_cases hiu : i = u
    · rw [hiu] at hC ⊢
      by_cases hju : j = u
      · exact Or.inl hju
      · by_cases hjv : j = v
        · rw [hsame]
          exact Or.inr hjv
        · exact absurd (huniq j hj hC.symm ((hterm_iff j hju hjv).1 htj)) hju
    · by_cases hiv : i = v
      · rw [hiv] at hC ⊢
        by_cases hju : j = u
        · rw [hp6v]
          exact Or.inr hju
        · by_cases hjv : j = v
          · exact Or.inl hjv
          · have hCj : C j = C u := hC.symm.trans hCuv.symm
            exact absurd (huniq j hj hCj ((hterm_iff j hju hjv).1 htj)) hju
      · have htqi := (hterm_iff i hiu hiv).1 hti
        by_cases hju : j = u
        · exfalso
          have hCi : C i = C u := by rw [hC, hju]
          exact hiu (huniq i hi hCi htqi)
        · by_cases hjv : j = v
          · exfalso
            have hCi : C i = C u := by
              rw [hC, hjv]
              exact hCuv.symm
            exact hiu (huniq i hi hCi htqi)
          · have htqj := (hterm_iff j hju hjv).1 htj
            rw [hother i hiu]
            exact g.tuniq i hi j hj htqi htqj hC

theorem unionStep_inv {n fuel : Nat} {p C : Nat → Nat} {ps : List (Nat × Nat)} {a b c : Nat}
    (g : Good n p C) (hcl : ClassesEq C ps) (ha : a < n) (hb : b < n) (hc : c < n)
    (hfuel : n + 2 ≤ fuel) :
    ∃ C2, Good n (unionStep fuel p a b c) C2 ∧ ClassesEq C2 (ps ++ [(a, b), (b, c)]) := by
  have happ : ps ++ [(a, b), (b, c)] = (ps ++ [(a, b)]) ++ [(b, c)] := by simp
  rw [happ]
  simp only [unionStep]
  set f1 := findH fuel p a with hf1
  set f2 := findH fuel f1.1 b with hf2
  set f3 := findH fuel f2.1 c with hf3
  have O1 : FindOut n C p a f1 := findOut_of_good g ha hfuel
  have sa1 : Stable n f1.1 C f1.2 :=
    ⟨O1.rlt, O1.rroot, fun j hj hcj => O1.uniq j hj (hcj.trans O1.rclass)⟩
  have O2 : FindOut n C f1.1 b f2 := findOut_of_good O1.good hb hfuel
  have sb2 : Stable n f2.1 C f2.2 :=
    ⟨O2.rlt, O2.rroot, fun j hj hcj => O2.uniq j hj (hcj.trans O2.rclass)⟩
  have sa2 : Stable n f2.1 C f1.2 := stable_find O1.good hb hfuel sa1
  have O3 : FindOut n C f2.1 c f3 := findOut_of_good O2.good hc hfuel
  have sc3 : Stable n f3.1 C f3.2 :=
    ⟨O3.rlt, O3.rroot, fun j hj hcj => O3.uniq j hj (hcj.trans O3.rclass)⟩
  have sa3 : Stable n f3.1 C f1.2 := stable_find O2.good hc hfuel sa2
  have sb3 : Stable n f3.1 C f2.2 := stable_find O2.good hc hfuel sb2
  by_cases hab : f1.2 = f2.2
  · rw [if_pos hab]
    have hCab : C a = C b := by rw [← O1.rclass, hab, O2.rclass]
    have hcl2 : ClassesEq C (ps ++ [(a, b)]) := classesEq_absorb hcl hCab
    set f5 := findH fuel f3.1 b with hf5
    have O5 : FindOut n C f3.1 b f5 := findOut_of_good O3.good hb hfuel
    have sc5 : Stable n f5.1 C f3.2 := stable_find O3.good hb hfuel sc3
    by_cases hbc : f5.2 = f3.2
    · rw [if_pos hbc]
      refine ⟨C, O5.good, classesEq_absorb hcl2 ?_⟩
      rw [← O5.rclass, hbc, O3.rclass]
    · rw [if_neg hbc]
      have hCne : C f5.2 ≠ C f3.2 := by
        intro h
        apply hbc
        have h2 := O5.uniq f3.2 O3.rlt (by rw [← h]; exact O5.rclass) (term_of_self sc5.2.1)
        exact h2.symm
      obtain ⟨G6, _⟩ := good_union O5.good O5.rlt O3.rlt O5.rroot sc5.2.1 hCne
        (fun j hj hcj => O5.uniq j hj (hcj.trans O5.rclass))
      refine ⟨mergeC C f5.2 f3.2, G6, ?_⟩
      rw [mergeC_congr O5.rclass O3.rclass]
      exact classesEq_merge b c hcl2
  · rw [if_neg hab]
    set p4 := Function.update f3.1 f1.2 f2.2 with hp4
    set C4 := mergeC C f1.2 f2.2 with hC4
    have hCab : C f1.2 ≠ C f2.2 := by
      intro h
      exact hab (sb3.2.2 f1.2 sa3.1 h (term_of_self sa3.2.1))
    obtain ⟨G4, U4⟩ := good_union O3.good sa3.1 sb3.1 sa3.2.1 sb3.2.1 hCab sa3.2.2
    have hcl2 : ClassesEq C4 (ps ++ [(a, b)]) := by
      rw [hC4, mergeC_congr O1.rclass O2.rclass]
      exact classesEq_merge a b hcl
    have hp4rb : p4 f2.2 = f2.2 := by
      rw [hp4, Function.update_noteq (Ne.symm hab)]
      exact sb3.2.1
    have hp4ra : p4 f1.2 = f2.2 := by
      rw [hp4]
      simp
    have hC4rb : C4 f2.2 = C f2.2 := by
      rw [hC4]
      exact mergeC_right
    have hCb_ne : C b ≠ C f1.2 := by
      intro h
      exact hCab (h.symm.trans O2.rclass.symm)
    have hC4b : C4 b = C f2.2 := by
      rw [hC4, mergeC_of_ne hCb_ne, ← O2.rclass]
    have srb4 : Stable n p4 C4 f2.2 := by
      refine ⟨sb3.1, hp4rb, ?_⟩
      intro j hj hcj htj
      exact U4 j hj (hcj.trans hC4rb) htj
    set f5 := findH fuel p4 b with hf5
    have O5 : FindOut n C4 p4 b f5 := findOut_of_good G4 hb hfuel
    have srb5 : Stable n f5.1 C4 f2.2 := stable_find G4 hb hfuel srb4
    have hrbc : f5.2 = f2.2 := by
      have h2 := O5.uniq f2.2 sb3.1 (hC4rb.trans hC4b.symm) (term_of_self srb5.2.1)
      exact h2.symm
    have hf5ra : f5.1 f1.2 = f2.2 := O5.rootedge f2.2 f1.2 hp4rb hp4ra
    by_cases hca : f3.2 = f1.2
    · have hne2 : f5.2 ≠ f3.2 := by
        rw [hrbc, hca]
        exact Ne.symm hab
      rw [if_neg hne2]
      have hC4rc : C4 f3.2 = C f2.2 := by
        rw [hca, hC4]
        exact mergeC_left
      refine ⟨C4, ?_, ?_⟩
      · refine good_stale O5.good O5.rlt O3.rlt hne2 O5.rroot ?_ ?_ ?_
        · rw [hca, hf5ra, hrbc]
        · rw [O5.rclass, hC4b, ← hC4rc]
        · intro j hj hcj htj
          exact O5.uniq j hj (hcj.trans O5.rclass) htj
      · refine classesEq_absorb hcl2 ?_
        have h1 : C4 c = C4 f3.2 := mergeC_point O3.rclass.symm
        rw [hC4b, h1, hC4rc]
    · have hp4rc : p4 f3.2 = f3.2 := by
        rw [hp4, Function.update_noteq hca]
        exact sc3.2.1
      have hCrc_ra : C f3.2 ≠ C f1.2 := by
        intro h
        exact hca (sa3.2.2 f3.2 O3.rlt h (term_of_self sc3.2.1))
      have hC4rc : C4 f3.2 = C f3.2 := by
        rw [hC4]
        exact mergeC_of_ne hCrc_ra
      by_cases hcb : f3.2 = f2.2
      · have heq : f5.2 = f3.2 := by rw [hrbc, hcb]
        rw [if_pos heq]
        refine ⟨C4, O5.good, classesEq_absorb hcl2 ?_⟩
        have h1 : C4 c = C4 f3.2 := mergeC_point O3.rclass.symm
        rw [hC4b, h1, hC4rc, hcb]
      · have hCrc_rb : C f3.2 ≠ C f2.2 := by
          intro h
          exact hcb (sb3.2.2 f3.2 O3.rlt h (term_of_self sc3.2.1))
        have src4 : Stable n p4 C4 f3.2 := by
          refine ⟨O3.rlt, hp4rc, ?_⟩
          intro j hj hcj htj
          have hcj2 : C4 j = C f3.2 := hcj.trans hC4rc
          have hCj_ra : C j ≠ C f1.2 := by
            intro h
            have h2 : C4 j = C f2.2 := by
              rw [hC4]
              unfold mergeC
              rw [if_pos h]
            exact hCrc_rb (h2.symm.trans hcj2).symm
          have hCj : C j = C f3.2 := by
            have h2 : C4 j = C j := by
              rw [hC4]
              exact mergeC_of_ne hCj_ra
            exact h2.symm.trans hcj2
          rw [hp4] at htj
          have htj2 : Term f3.1 j := ((term_union_iff sa3.2.1 sb3.2.1 hab j).1 htj).1
          exact sc3.2.2 j hj hCj htj2
        have src5 : Stable n f5.1 C4 f3.2 := stable_find G4 hb hfuel src4
        have hne2 : f5.2 ≠ f3.2 := by
          rw [hrbc]
          exact Ne.symm hcb
        rw [if_neg hne2]
        have hCne2 : C4 f5.2 ≠ C4 f3.2 := by
          intro h
          apply hCrc_rb
          have h2 : C f2.2 = C f3.2 := by
            rw [← hC4rc, ← h, O5.rclass, hC4b]
          exact h2.symm
        obtain ⟨G6, _⟩ := good_union O5.good O5.rlt O3.rlt O5.rroot src5.2.1 hCne2
          (fun j hj hcj => O5.uniq j hj (hcj.trans O5.rclass))
        refine ⟨mergeC C4 f5.2 f3.2, G6, ?_⟩
        have hCc : C4 f3.2 = C4 c := mergeC_point O3.rclass
        rw [mergeC_congr O5.rclass hCc]
        exact classesEq_merge b c hcl2

theorem ufFold_inv {n fuel : Nat} (canon : Nat → Nat) (ts : List Nat) :
    ∀ (p C : Nat → Nat) (ps : List (Nat × Nat)), Good n p C → ClassesEq C ps →
      (∀ t ∈ ts, canon (3 * t) < n ∧ canon (3 * t + 1) < n ∧ canon (3 * t + 2) < n) →
      n + 2 ≤ fuel →
      ∃ C2, Good n (ufFold fuel canon ts p) C2 ∧ ClassesEq C2 (ps ++ pairsOf canon ts) := by
  induction ts with
  | nil =>
    intro p C ps g hcl _ _
    refine ⟨C, g, ?_⟩
    simpa [pairsOf] using hcl
  | cons t ts ih =>
    intro p C ps g hcl hbound hfuel
    obtain ⟨h1, h2, h3⟩ := hbound t (List.mem_cons_self t ts)
    obtain ⟨C1, g1, hcl1⟩ := unionStep_inv g hcl h1 h2 h3 hfuel
    obtain ⟨C2, g2, hcl2⟩ :=
      ih _ C1 _ g1 hcl1 (fun u hu => hbound u (List.mem_cons_of_mem t hu)) hfuel
    refine ⟨C2, g2, ?_⟩
    have hl : ps ++ pairsOf canon (t :: ts) =
        (ps ++ [(canon (3 * t), canon (3 * t + 1)),
                (canon (3 * t + 1), canon (3 * t + 2))]) ++ pairsOf canon ts := by
      simp [pairsOf]
    rw [hl]
    exact hcl2

theorem rootsFold_spec {n fuel : Nat} (canon : Nat → Nat) (ts : List Nat) :
    ∀ (p C : Nat → Nat), Good n p C → (∀ t ∈ ts, canon (3 * t) < n) → n + 2 ≤ fuel →
      Good n (rootsFold fuel canon ts p).1 C ∧
      (rootsFold fuel canon ts p).2.length = ts.length ∧
      (∀ r, Stable n p C r → Stable n (rootsFold fuel canon ts p).1 C r) ∧
      (∀ i, i < ts.length →
        Stable n (rootsFold fuel canon ts p).1 C ((rootsFold fuel canon ts p).2.getD i 0) ∧
        C ((rootsFold fuel canon ts p).2.getD i 0) = C (canon (3 * ts.getD i 0))) := by
  induction ts with
  | nil =>
    intro p C g _ _
    exact ⟨g, rfl, fun r hr => hr, fun i hi => absurd hi (by simp)⟩
  | cons t ts ih =>
    intro p C g hbound hfuel
    have ht : canon (3 * t) < n := hbound t (List.mem_cons_self t ts)
    have O : FindOut n C p (canon (3 * t)) (findH fuel p (canon (3 * t))) :=
      findOut_of_good g ht hfuel
    have sroot : Stable n (findH fuel p (canon (3 * t))).1 C
        (findH fuel p (canon (3 * t))).2 :=
      ⟨O.rlt, O.rroot, fun j hj hcj => O.uniq j hj (hcj.trans O.rclass)⟩
    obtain ⟨g2, hlen, hpres, hmem⟩ :=
      ih (findH fuel p (canon (3 * t))).1 C O.good
        (fun u hu => hbound u (List.mem_cons_of_mem t hu)) hfuel
    have hred1 : (rootsFold fuel canon (t :: ts) p).1 =
        (rootsFold fuel canon ts (findH fuel p (canon (3 * t))).1).1 := rfl
    have hred2 : (rootsFold fuel canon (t :: ts) p).2 =
        (findH fuel p (canon (3 * t))).2 ::
          (rootsFold fuel canon ts (findH fuel p (canon (3 * t))).1).2 := rfl
    refine ⟨?_, ?_, ?_, ?_⟩
    · rw [hred1]
      exact g2
    · rw [hred2]
      simp [hlen]
    · intro r hr
      rw [hred1]
      exact hpres r (stable_find g ht hfuel hr)
    · intro i hi
      rcases i with _ | i
      · rw [hred1, hred2]
        constructor
        · simpa using hpres _ sroot
        · simpa using O.rclass
      · rw [hred1, hred2]
        have hi2 : i < ts.length := by simpa using hi
        simpa using hmem i hi2

theorem canonAt_lt {keys : List (ℤ × ℤ × ℤ)} {i : Nat} (h : i < keys.length) :
    canonAt keys i < keys.length := by
  unfold canonAt
  apply List.findIdx_lt_length_of_exists
  exact ⟨keys.getD i (0, 0, 0), getD_mem keys i (0, 0, 0) h, by simp⟩

theorem findIdx_getD_prop {α : Type} (p : α → Bool) (d : α) :
    ∀ l : List α, l.findIdx p < l.length → p (l.getD (l.findIdx p) d) = true := by
  intro l
  induction l with
  | nil =>
    intro h
    simp at h
  | cons x xs ih =>
    intro h
    rcases Bool.eq_false_or_eq_true (p x) with hx | hx
    · rw [List.findIdx_cons, hx, cond_true, List.getD_cons_zero]
      exact hx
    · rw [List.findIdx_cons, hx, cond_false] at h ⊢
      rw [List.getD_cons_succ]
      exact ih (by simpa using h)

theorem keys_canonAt {keys : List (ℤ × ℤ × ℤ)} {i : Nat} (h : i < keys.length) :
    keys.getD (canonAt keys i) (0, 0, 0) = keys.getD i (0, 0, 0) := by
  have hlt : canonAt keys i < keys.length := canonAt_lt h
  have h2 := findIdx_getD_prop (fun k => decide (k = keys.getD i (0, 0, 0))) (0, 0, 0)
    keys hlt
  exact of_decide_eq_true h2

theorem canonAt_key_eq {keys : List (ℤ × ℤ × ℤ)} {i j : Nat}
    (h : keys.getD i (0, 0, 0) = keys.getD j (0, 0, 0)) : canonAt keys i = canonAt keys j := by
  unfold canonAt
  rw [h]

theorem keysOf_length (tris : List Tri) : (keysOf tris).length = 3 * tris.length := by
  unfold keysOf
  induction tris with
  | nil => rfl
  | cons t ts ih =>
    rw [List.flatMap_cons, List.length_append, ih]
    simp only [List.length_cons, List.length_nil]
    omega

theorem sharesVert_symm {tris : List Tri} {t u : Nat} (h : sharesVert tris t u) :
    sharesVert tris u t := by
  obtain ⟨ht, hu, i, hi, j, hj, e⟩ := h
  exact ⟨hu, ht, j, hj, i, hi, e.symm⟩

theorem connected_symm {tris : List Tri} {t u : Nat} (h : Connected tris t u) :
    Connected tris u t :=
  (Relation.ReflTransGen.symmetric fun _ _ hs => sharesVert_symm hs) h

theorem sharesVert_of_keys {tris : List Tri} {x s : Nat} {j : Nat}
    (hx : x < 3 * tris.length) (hs : s < tris.length) (hj : j < 3)
    (he : (keysOf tris).getD x (0, 0, 0) = (keysOf tris).getD (3 * s + j) (0, 0, 0)) :
    sharesVert tris (x / 3) s := by
  refine ⟨by omega, hs, x % 3, by omega, j, hj, ?_⟩
  rw [show 3 * (x / 3) + x % 3 = x by omega]
  exact he

theorem eqvGen_pairs_cases (tris : List Tri) {x y : Nat}
    (h : (x, y) ∈ pairsOf (fun i => canonAt (keysOf tris) i) (List.range tris.length)) :
    ∃ s < tris.length, ∃ i < 3, ∃ j < 3,
      x = canonAt (keysOf tris) (3 * s + i) ∧ y = canonAt (keysOf tris) (3 * s + j) := by
  unfold pairsOf at h
  obtain ⟨s, hsm, hxy⟩ := List.mem_flatMap.1 h
  have hs : s < tris.length := List.mem_range.1 hsm
  rcases List.mem_cons.1 hxy with h1 | h2
  · have hx := congrArg Prod.fst h1
    have hy := congrArg Prod.snd h1
    exact ⟨s, hs, 0, by omega, 1, by omega, hx, hy⟩
  · have h3 := List.mem_singleton.1 h2
    have hx := congrArg Prod.fst h3
    have hy := congrArg Prod.snd h3
    exact ⟨s, hs, 1, by omega, 2, by omega, hx, hy⟩

theorem eqvGen_to_connected (tris : List Tri) {a b : Nat}
    (h : Relation.EqvGen (PairRel (pairsOf (fun i => canonAt (keysOf tris) i)
      (List.range tris.length))) a b) :
    a = b ∨ (a < 3 * tris.length ∧ b < 3 * tris.length ∧ Connected tris (a / 3) (b / 3)) := by
  induction h with
  | rel x y hxy =>
    right
    obtain ⟨s, hs, i, hi, j, hj, hx, hy⟩ := eqvGen_pairs_cases tris hxy
    have hklen : (keysOf tris).length = 3 * tris.length := keysOf_length tris
    have hxi : 3 * s + i < (keysOf tris).length := by rw [hklen]; omega
    have hxj : 3 * s + j < (keysOf tris).length := by rw [hklen]; omega
    have hxlt : x < 3 * tris.length := by
      rw [hx, ← hklen]
      exact canonAt_lt hxi
    have hylt : y < 3 * tris.length := by
      rw [hy, ← hklen]
      exact canonAt_lt hxj
    refine ⟨hxlt, hylt, ?_⟩
    have hkey_x : (keysOf tris).getD x (0, 0, 0) =
        (keysOf tris).getD (3 * s + i) (0, 0, 0) := by
      rw [hx]
      exact keys_canonAt hxi
    have hkey_y : (keysOf tris).getD y (0, 0, 0) =
        (keysOf tris).getD (3 * s + j) (0, 0, 0) := by
      rw [hy]
      exact keys_canonAt hxj
    have h1 : sharesVert tris (x / 3) s := sharesVert_of_keys hxlt hs hi hkey_x
    have h2 : sharesVert tris (y / 3) s := sharesVert_of_keys hylt hs hj hkey_y
    exact Relation.ReflTransGen.head h1 (Relation.ReflTransGen.single (sharesVert_symm h2))
  | refl x => exact Or.inl rfl
  | symm x y hxy ih =>
    rcases ih with h | ⟨h1, h2, h3⟩
    · exact Or.inl h.symm
    · exact Or.inr ⟨h2, h1, connected_symm h3⟩
  | trans x y z hxy hyz ih1 ih2 =>
    rcases ih1 with h | ⟨h1, h2, h3⟩
    · rw [h]
      exact ih2
    · rcases ih2 with h | ⟨h4, h5, h6⟩
      · rw [← h]
        exact Or.inr ⟨h1, h2, h3⟩
      · exact Or.inr ⟨h1, h5, Relation.ReflTransGen.trans h3 h6⟩

theorem canon_in_tri (tris : List Tri) {s i : Nat} (hs : s < tris.length) (hi : i < 3) :
    Relation.EqvGen (PairRel (pairsOf (fun i2 => canonAt (keysOf tris) i2)
      (List.range tris.length)))
      (canonAt (keysOf tris) (3 * s)) (canonAt (keysOf tris) (3 * s + i)) := by
  have hmem1 : ((canonAt (keysOf tris) (3 * s), canonAt (keysOf tris) (3 * s + 1)) :
      Nat × Nat) ∈ pairsOf (fun i2 => canonAt (keysOf tris) i2) (List.range tris.length) := by
    unfold pairsOf
    refine List.mem_flatMap.2 ⟨s, List.mem_range.2 hs, ?_⟩
    simp
  have hmem2 : ((canonAt (keysOf tris) (3 * s + 1), canonAt (keysOf tris) (3 * s + 2)) :
      Nat × Nat) ∈ pairsOf (fun i2 => canonAt (keysOf tris) i2) (List.range tris.length) := by
    unfold pairsOf
    refine List.mem_flatMap.2 ⟨s, List.mem_range.2 hs, ?_⟩
    simp
  interval_cases i
  · exact Relation.EqvGen.refl _
  · exact Relation.EqvGen.rel _ _ hmem1
  · exact Relation.EqvGen.trans _ _ _ (Relation.EqvGen.rel _ _ hmem1)
      (Relation.EqvGen.rel _ _ hmem2)

theorem sharesVert_eqvGen (tris : List Tri) {t u : Nat} (h : sharesVert tris t u) :
    Relation.EqvGen (PairRel (pairsOf (fun i => canonAt (keysOf tris) i)
      (List.range tris.length)))
      (canonAt (keysOf tris) (3 * t)) (canonAt (keysOf tris) (3 * u)) := by
  obtain ⟨ht, hu, i, hi, j, hj, e⟩ := h
  have hcan : canonAt (keysOf tris) (3 * t + i) = canonAt (keysOf tris) (3 * u + j) :=
    canonAt_key_eq e
  refine Relation.EqvGen.trans _ _ _ (canon_in_tri tris ht hi) ?_
  rw [hcan]
  exact Relation.EqvGen.symm _ _ (canon_in_tri tris hu hj)

theorem connected_eqvGen (tris : List Tri) {t u : Nat} (h : Connected tris t u) :
    Relation.EqvGen (PairRel (pairsOf (fun i => canonAt (keysOf tris) i)
      (List.range tris.length)))
      (canonAt (keysOf tris) (3 * t)) (canonAt (keysOf tris) (3 * u)) := by
  induction h with
  | refl => exact Relation.EqvGen.refl _
  | tail hxy hshare ih =>
    exact Relation.EqvGen.trans _ _ _ ih (sharesVert_eqvGen tris hshare)

theorem eqvGen_iff_connected (tris : List Tri) {t u : Nat} (ht : t < tris.length)
    (hu : u < tris.length) :
    (Relation.EqvGen (PairRel (pairsOf (fun i => canonAt (keysOf tris) i)
      (List.range tris.length)))
      (canonAt (keysOf tris) (3 * t)) (canonAt (keysOf tris) (3 * u)) ↔
    Connected tris t u) := by
  have hklen := keysOf_length tris
  have h3t : 3 * t < (keysOf tris).length := by rw [hklen]; omega
  have h3u : 3 * u < (keysOf tris).length := by rw [hklen]; omega
  have hct : canonAt (keysOf tris) (3 * t) < 3 * tris.length := by
    rw [← hklen]
    exact canonAt_lt h3t
  have hcu : canonAt (keysOf tris) (3 * u) < 3 * tris.length := by
    rw [← hklen]
    exact canonAt_lt h3u
  have hshare_t : sharesVert tris t (canonAt (keysOf tris) (3 * t) / 3) := by
    refine ⟨ht, by omega, 0, by omega, canonAt (keysOf tris) (3 * t) % 3, by omega, ?_⟩
    rw [Nat.add_zero,
      show 3 * (canonAt (keysOf tris) (3 * t) / 3) + canonAt (keysOf tris) (3 * t) % 3
        = canonAt (keysOf tris) (3 * t) by omega]
    exact (keys_canonAt h3t).symm
  have hshare_u : sharesVert tris u (canonAt (keysOf tris) (3 * u) / 3) := by
    refine ⟨hu, by omega, 0, by omega, canonAt (keysOf tris) (3 * u) % 3, by omega, ?_⟩
    rw [Nat.add_zero,
      show 3 * (canonAt (keysOf tris) (3 * u) / 3) + canonAt (keysOf tris) (3 * u) % 3
        = canonAt (keysOf tris) (3 * u) by omega]
    exact (keys_canonAt h3u).symm
  constructor
  · intro h
    rcases eqvGen_to_connected tris h with heq | ⟨h1, h2, h3⟩
    · have hk : (keysOf tris).getD (3 * t) (0, 0, 0) =
          (keysOf tris).getD (3 * u) (0, 0, 0) := by
        rw [← keys_canonAt h3t, heq, keys_canonAt h3u]
      refine Relation.ReflTransGen.single ⟨ht, hu, 0, by omega, 0, by omega, ?_⟩
      rw [Nat.add_zero, Nat.add_zero]
      exact hk
    · exact Relation.ReflTransGen.head hshare_t
        (Relation.ReflTransGen.tail h3 (sharesVert_symm hshare_u))
  · intro h
    exact connected_eqvGen tris h

theorem splitRoots_spec (tris : List Tri) :
    (splitRoots tris).length = tris.length ∧
    ∀ t u, t < tris.length → u < tris.length →
      ((splitRoots tris).getD t 0 = (splitRoots tris).getD u 0 ↔ Connected tris t u) := by
  set T := tris.length with hT
  set keys := keysOf tris with hkeys
  set canon := fun i => canonAt keys i with hcanon
  set n := 3 * T with hn
  have hklen : keys.length = n := by
    rw [hkeys, hn, hT]
    exact keysOf_length tris
  have hcanon_lt : ∀ i, i < n → canon i < n := by
    intro i hi
    have h2 : canonAt keys i < keys.length := canonAt_lt (by rw [hklen]; exact hi)
    rw [hklen] at h2
    exact h2
  have hbound : ∀ t ∈ List.range T,
      canon (3 * t) < n ∧ canon (3 * t + 1) < n ∧ canon (3 * t + 2) < n := by
    intro t htm
    have ht : t < T := List.mem_range.1 htm
    exact ⟨hcanon_lt _ (by omega), hcanon_lt _ (by omega), hcanon_lt _ (by omega)⟩
  obtain ⟨C, g1, hcl⟩ := ufFold_inv canon (List.range T) id id [] (good_id n)
    classesEq_nil hbound (le_refl (n + 2))
  rw [List.nil_append] at hcl
  obtain ⟨g2, hlen, hpres, hmem⟩ :=
    rootsFold_spec canon (List.range T) (ufFold (n + 2) canon (List.range T) id) C g1
      (fun t htm => (hbound t htm).1) (le_refl (n + 2))
  have hsplit : splitRoots tris = (rootsFold (n + 2) canon (List.range T)
      (ufFold (n + 2) canon (List.range T) id)).2 := rfl
  constructor
  · rw [hsplit, hlen, List.length_range]
  · intro t u ht hu
    rw [hsplit]
    have hmt := hmem t (by rw [List.length_range]; exact ht)
    have hmu := hmem u (by rw [List.length_range]; exact hu)
    have hrt : (List.range T).getD t 0 = t := by
      rw [List.getD_eq_getElem _ _ (by rw [List.length_range]; exact ht)]
      simp
    have hru : (List.range T).getD u 0 = u := by
      rw [List.getD_eq_getElem _ _ (by rw [List.length_range]; exact hu)]
      simp
    rw [hrt] at hmt
    rw [hru] at hmu
    rw [← eqvGen_iff_connected tris ht hu]
    constructor
    · intro h
      have hC : C (canon (3 * t)) = C (canon (3 * u)) := by
        rw [← hmt.2, h, hmu.2]
      exact (hcl _ _).1 hC
    · intro h
      have hC : C (canon (3 * t)) = C (canon (3 * u)) := (hcl _ _).2 h
      have h2 : C ((rootsFold (n + 2) canon (List.range T)
          (ufFold (n + 2) canon (List.range T) id)).2.getD u 0) =
          C ((rootsFold (n + 2) canon (List.range T)
          (ufFold (n + 2) canon (List.range T) id)).2.getD t 0) := by
        rw [hmt.2, hmu.2, hC]
      exact (hmt.1.2.2 _ hmu.1.1 h2 (term_of_self hmu.1.2.1)).symm

theorem mem_firstOccursAux (r : Nat) : ∀ (l seen : List Nat),
    (r ∈ firstOccursAux l seen ↔ r ∈ l ∧ r ∉ seen) := by
  intro l
  induction l with
  | nil =>
    intro seen
    simp [firstOccursAux]
  | cons x xs ih =>
    intro seen
    rw [firstOccursAux]
    by_cases hx : x ∈ seen
    · rw [if_pos hx, ih seen]
      constructor
      · rintro ⟨h1, h2⟩
        exact ⟨List.mem_cons_of_mem x h1, h2⟩
      · rintro ⟨h1, h2⟩
        rcases List.mem_cons.1 h1 with h3 | h3
        · rw [h3] at h2
          exact absurd hx h2
        · exact ⟨h3, h2⟩
    · rw [if_neg hx]
      constructor
      · intro h
        rcases List.mem_cons.1 h with h2 | h2
        · rw [h2]
          exact ⟨List.mem_cons_self _ _, hx⟩
        · obtain ⟨h3, h4⟩ := (ih (x :: seen)).1 h2
          exact ⟨List.mem_cons_of_mem x h3, fun h6 => h4 (List.mem_cons_of_mem x h6)⟩
      · rintro ⟨h1, h2⟩
        rcases List.mem_cons.1 h1 with h3 | h3
        · rw [h3]
          exact List.mem_cons_self _ _
        · by_cases hrx : r = x
          · rw [hrx]
            exact List.mem_cons_self _ _
          · refine List.mem_cons_of_mem _ ((ih (x :: seen)).2 ⟨h3, ?_⟩)
            intro h4
            rcases List.mem_cons.1 h4 with h5 | h5
            · exact hrx h5
            · exact h2 h5

theorem nodup_firstOccursAux : ∀ (l seen : List Nat), (firstOccursAux l seen).Nodup := by
  intro l
  induction l with
  | nil =>
    intro seen
    simp [firstOccursAux]
  | cons x xs ih =>
    intro seen
    rw [firstOccursAux]
    by_cases hx : x ∈ seen
    · rw [if_pos hx]
      exact ih seen
    · rw [if_neg hx]
      refine List.nodup_cons.2 ⟨?_, ih (x :: seen)⟩
      intro hmem
      exact ((mem_firstOccursAux x xs (x :: seen)).1 hmem).2 (List.mem_cons_self _ _)

theorem mem_firstOccurs {l : List Nat} {r : Nat} : r ∈ firstOccurs l ↔ r ∈ l := by
  rw [firstOccurs, mem_firstOccursAux]
  simp

theorem nodup_firstOccurs (l : List Nat) : (firstOccurs l).Nodup := nodup_firstOccursAux l []

theorem countP_eq_one_of_nodup {r0 : Nat} :
    ∀ l : List Nat, l.Nodup → r0 ∈ l → l.countP (fun r => decide (r0 = r)) = 1 := by
  intro l
  induction l with
  | nil =>
    intro _ hm
    cases hm
  | cons x xs ih =>
    intro hn hm
    rcases List.mem_cons.1 hm with h | h
    · rw [List.countP_cons_of_pos _ _ (by simp [h])]
      have h0 : xs.countP (fun r => decide (r0 = r)) = 0 := by
        rw [List.countP_eq_zero]
        intro a ha
        simp only [decide_eq_true_eq]
        intro he
        rw [← he, h] at ha
        exact (List.nodup_cons.1 hn).1 ha
      omega
    · have hne : r0 ≠ x := by
        intro he
        rw [he] at h
        exact (List.nodup_cons.1 hn).1 h
      rw [List.countP_cons_of_neg _ _ (by simp [hne])]
      exact ih (List.nodup_cons.1 hn).2 h

theorem componentsIdx_countP {roots : List Nat} {T t : Nat} (ht : t < T)
    (hlen : roots.length = T) :
    (componentsIdx roots T).countP (fun g => decide (t ∈ g)) = 1 := by
  rw [componentsIdx, List.countP_map]
  have hmem0 : roots.getD t 0 ∈ firstOccurs roots :=
    mem_firstOccurs.2 (getD_mem roots t 0 (by omega))
  have hcong : ∀ r ∈ firstOccurs roots,
      (((fun g => decide (t ∈ g)) ∘ (fun r => (List.range T).filter
        (fun t2 => decide (roots.getD t2 0 = r)))) r = true ↔
      (fun r => decide (roots.getD t 0 = r)) r = true) := by
    intro r hr
    simp only [Function.comp_apply, decide_eq_true_eq, List.mem_filter, List.mem_range]
    simp [ht]
  rw [List.countP_congr hcong]
  exact countP_eq_one_of_nodup _ (nodup_firstOccurs roots) hmem0

theorem componentsIdx_mem_iff {roots : List Nat} {T t u : Nat} (ht : t < T) (hu : u < T)
    (hlen : roots.length = T) :
    (∃ g ∈ componentsIdx roots T, t ∈ g ∧ u ∈ g) ↔ roots.getD t 0 = roots.getD u 0 := by
  constructor
  · rintro ⟨g, hg, htg, hug⟩
    rw [componentsIdx] at hg
    obtain ⟨r, hr, hgr⟩ := List.mem_map.1 hg
    rw [← hgr] at htg hug
    have h1 : roots.getD t 0 = r := by
      have h2 := (List.mem_filter.1 htg).2
      simpa using h2
    have h2 : roots.getD u 0 = r := by
      have h3 := (List.mem_filter.1 hug).2
      simpa using h3
    rw [h1, h2]
  · intro h
    refine ⟨(List.range T).filter (fun t2 => decide (roots.getD t2 0 = roots.getD t 0)),
      ?_, ?_, ?_⟩
    · rw [componentsIdx]
      exact List.mem_map.2 ⟨roots.getD t 0,
        mem_firstOccurs.2 (getD_mem roots t 0 (by omega)), rfl⟩
    · rw [List.mem_filter, List.mem_range]
      exact ⟨ht, decide_eq_true rfl⟩
    · rw [List.mem_filter, List.mem_range]
      exact ⟨hu, decide_eq_true h.symm⟩

/-- C5 amended: for assembly axes other than x (that is, y and z), the
start pose places the moving group at the base far face plus the 2.8
separation constant, and since every prepared vertex coordinate lies in
[-2.75, 2.75], the moving bounding box lies strictly beyond the base
bounding box along the assembly axis (no overlap). -/
theorem c5_amended (tris0 : List Tri) (e : Ensamble) (gA gB : List Tri) (rest : List (List Tri))
    (haxis : e.axis ≠ Axis.x) (hdim : 0 < maxDim (bboxOf tris0)) (hBne : gB ≠ [])
    (hA : (piezasManualSetup tris0 e).geoA = some gA)
    (hB : (piezasManualSetup tris0 e).upperGroup = gB :: rest) :
    axisCoord e.axis (bboxOf gA).hi <
      axisCoord e.axis (bboxOf gB).lo +
        axisCoord e.axis (piezasManualSetup tris0 e).startPos := by
  obtain ⟨hlen, hgA, hgB, hsp, -⟩ := setup_eqs tris0 e gA gB rest hA hB
  rw [hsp, startPosOf_coord e.axis haxis gA gB]
  have hlo : -(11 / 4 : ℚ) ≤ axisCoord e.axis (bboxOf gB).lo := by
    refine bboxOf_lo_le e.axis hBne _ fun v hv => ?_
    have hvin : v ∈ vertsOf (prepGeo tris0) := by
      rcases mem_vertsOf.1 hv with ⟨t, htg, hvt⟩
      have htin : t ∈ prepGeo tris0 :=
        mem_effectiveParts (hgB ▸ classifyPair_snd_mem hlen) htg
      exact mem_vertsOf.2 ⟨t, htin, hvt⟩
    exact (prepGeo_bound tris0 e.axis hdim v hvin).1
  have hsep : (11 / 4 : ℚ) < SEP := by norm_num [SEP]
  linarith

set_option maxRecDepth 1000000 in
/-- Witness for the amended C5 at a concrete two-component y-axis
model. -/
theorem c5_amended_witness :
    (({} : Ensamble).axis ≠ Axis.x) ∧
    (0 < maxDim (bboxOf [cexB5, cexB9])) ∧
    ([cexB9] ≠ ([] : List Tri)) ∧
    (piezasManualSetup [cexB5, cexB9] {}).geoA = some [cexB5] ∧
    (piezasManualSetup [cexB5, cexB9] {}).upperGroup = [cexB9] :: [] ∧
    axisCoord ({} : Ensamble).axis (bboxOf [cexB5]).hi <
      axisCoord ({} : Ensamble).axis (bboxOf [cexB9]).lo +
        axisCoord ({} : Ensamble).axis (piezasManualSetup [cexB5, cexB9] {}).startPos :=
  ⟨by decide, by decide, by decide, by decide, by decide,
   c5_amended [cexB5, cexB9] {} [cexB5] [cexB9] [] (by decide) (by decide) (by decide)
     (by decide) (by decide)⟩

set_option maxRecDepth 1000000 in
/-- C2 counterexample: a two-component model with assembly axis x in
which the piece classified as Base (geoA) has the strictly higher
x-center: the classification compared y-centers, not x-centers. -/
theorem c2_counterexample :
    (piezasManualSetup [cexP, cexQ] { axis := Axis.x }).geoA = some [cexQ] ∧
    (piezasManualSetup [cexP, cexQ] { axis := Axis.x }).upperGroup = [[cexP]] ∧
    centerCoord .x [cexP] < centerCoord .x [cexQ] :=
  ⟨by decide, by decide, by decide⟩

/-- C2 amended: of the two largest sub-meshes, the one with the lower
bounding-box z-center is Base when the assembly axis is z; for every
other axis, x included, the one with the lower y-center is Base. -/
theorem c2_amended (tris0 : List Tri) (e : Ensamble) (gA gB : List Tri) (rest : List (List Tri))
    (hA : (piezasManualSetup tris0 e).geoA = some gA)
    (hB : (piezasManualSetup tris0 e).upperGroup = gB :: rest) :
    if e.axis = Axis.z then centerCoord .z gA ≤ centerCoord .z gB
    else centerCoord .y gA ≤ centerCoord .y gB := by
  obtain ⟨-, hgA, hgB, -, -⟩ := setup_eqs tris0 e gA gB rest hA hB
  rw [hgA, hgB]
  simp only [classifyPair]
  split_ifs with h1 h2 h2 <;> simp only <;>
    first
      | assumption
      | exact le_of_not_le h2

set_option maxRecDepth 200000 in
/-- Witness for the amended C2 at a concrete two-component x-axis
model. -/
theorem c2_amended_witness :
    (piezasManualSetup [cexB5, cexM5] { axis := Axis.x }).geoA = some [cexB5] ∧
    (piezasManualSetup [cexB5, cexM5] { axis := Axis.x }).upperGroup = [[cexM5]] ∧
    (if ({ axis := Axis.x } : Ensamble).axis = Axis.z then
      centerCoord .z [cexB5] ≤ centerCoord .z [cexM5]
    else centerCoord .y [cexB5] ≤ centerCoord .y [cexM5]) :=
  ⟨by decide, by decide,
   c2_amended [cexB5, cexM5] { axis := Axis.x } [cexB5] [cexM5] [] (by decide) (by decide)⟩

set_option maxRecDepth 200000 in
/-- C5 counterexample: with assembly axis x the start position is the
bare separation constant (2.8, alignedY, 0), not the base far face plus
the constant, and on this model the moving bounding box strictly
overlaps the base bounding box along x at the start pose. -/
theorem c5_counterexample :
    (piezasManualSetup [cexB5, cexM5] { axis := Axis.x }).geoA = some [cexB5] ∧
    (piezasManualSetup [cexB5, cexM5] { axis := Axis.x }).upperGroup = [[cexM5]] ∧
    (bboxOf [cexM5]).lo.x + (piezasManualSetup [cexB5, cexM5] { axis := Axis.x }).startPos.x <
      (bboxOf [cexB5]).hi.x ∧
    (bboxOf [cexB5]).lo.x <
      (bboxOf [cexM5]).hi.x + (piezasManualSetup [cexB5, cexM5] { axis := Axis.x }).startPos.x :=
  ⟨by decide, by decide, by decide, by decide⟩

set_option maxRecDepth 400000 in
/-- C9 counterexample: a three-component model with `allComps` enabled
whose third component has y-center below the midline: it is assigned to
neither the base group nor the moving group (both are free of it), so
an auxiliary component can be discarded from both. -/
theorem c9_counterexample :
    (piezasManualSetup [cexB5, cexB9, cexC9] { axis := Axis.y, allComps := true }).geoA =
      some [cexB5] ∧
    (piezasManualSetup [cexB5, cexB9, cexC9] { axis := Axis.y, allComps := true }).upperGroup =
      [[cexB9]] ∧
    (piezasManualSetup [cexB5, cexB9, cexC9] { axis := Axis.y, allComps := true }).auxBase = [] ∧
    effectiveParts (prepGeo [cexB5, cexB9, cexC9]) { axis := Axis.y, allComps := true } =
      [[cexB5], [cexB9], [cexC9]] :=
  ⟨by decide, by decide, by decide, by decide⟩

/-- C9 amended: with `allComps` enabled and `auxInBase` disabled, a
component of index at least 2 joins the moving group exactly when its
y-center lies strictly above the midline between the base top face and
the moving bottom face; the others are discarded (the base group gets
none of them). -/
theorem c9_amended (tris0 : List Tri) (e : Ensamble) (gA gB : List Tri) (rest : List (List Tri))
    (hall : e.allComps = true) (haux : e.auxInBase = false)
    (hA : (piezasManualSetup tris0 e).geoA = some gA)
    (hB : (piezasManualSetup tris0 e).upperGroup = gB :: rest) :
    (piezasManualSetup tris0 e).auxBase = [] ∧
    ∀ g, g ∈ rest ↔
      g ∈ (effectiveParts (prepGeo tris0) e).drop 2 ∧ midYOf gA gB < centerCoord .y g := by
  obtain ⟨-, hgA, hgB, -, hfree⟩ := setup_eqs tris0 e gA gB rest hA hB
  obtain ⟨hbase, hrest⟩ := hfree haux
  refine ⟨hbase, fun g => ?_⟩
  rw [hrest]
  unfold auxFilter
  rw [if_pos hall, List.mem_filter]
  simp only [decide_eq_true_eq]

set_option maxRecDepth 400000 in
/-- Witness for the amended C9 at the three-component model. -/
theorem c9_amended_witness :
    ({ axis := Axis.y, allComps := true } : Ensamble).allComps = true ∧
    ({ axis := Axis.y, allComps := true } : Ensamble).auxInBase = false ∧
    (piezasManualSetup [cexB5, cexB9, cexC9] { axis := Axis.y, allComps := true }).geoA =
      some [cexB5] ∧
    (piezasManualSetup [cexB5, cexB9, cexC9] { axis := Axis.y, allComps := true }).upperGroup =
      [cexB9] :: [] ∧
    ((piezasManualSetup [cexB5, cexB9, cexC9] { axis := Axis.y, allComps := true }).auxBase = [] ∧
     ∀ g, g ∈ ([] : List (List Tri)) ↔
       g ∈ (effectiveParts (prepGeo [cexB5, cexB9, cexC9])
              { axis := Axis.y, allComps := true }).drop 2 ∧
       midYOf [cexB5] [cexB9] < centerCoord .y g) :=
  ⟨rfl, rfl, by decide, by decide,
   c9_amended [cexB5, cexB9, cexC9] { axis := Axis.y, allComps := true } [cexB5] [cexB9] []
     rfl rfl (by decide) (by decide)⟩

/-- C10: when the union-find partition yields fewer than two components
and the descriptor enables `geoSplit`, the pipeline splits the mesh at
the axis midpoint into exactly two sub-meshes: a triangle lands in the
lower half iff its centroid coordinate is at most the midpoint, in the
upper half otherwise, and the two halves use up the whole buffer. -/
theorem c10_geo_split (geo : List Tri) (e : Ensamble)
    (hfew : (splitMeshByComponents geo).length < 2) (hgs : e.geoSplit = true) :
    effectiveParts geo e = splitMeshGeometrically geo e.axis ∧
    (splitMeshGeometrically geo e.axis).length = 2 ∧
    ((splitMeshGeometrically geo e.axis).getD 0 []).length +
      ((splitMeshGeometrically geo e.axis).getD 1 []).length = geo.length ∧
    (∀ t, t ∈ (splitMeshGeometrically geo e.axis).getD 0 [] ↔
      t ∈ geo ∧ centroidCoord e.axis t ≤ axisMid geo e.axis) ∧
    (∀ t, t ∈ (splitMeshGeometrically geo e.axis).getD 1 [] ↔
      t ∈ geo ∧ ¬ centroidCoord e.axis t ≤ axisMid geo e.axis) := by
  refine ⟨?_, rfl, ?_, fun t => ?_, fun t => ?_⟩
  · unfold effectiveParts
    rw [if_pos ⟨hfew, hgs⟩]
  · exact length_filter_pos_neg (fun t => decide (centroidCoord e.axis t ≤ axisMid geo e.axis)) geo
  · show t ∈ List.filter _ geo ↔ _
    rw [List.mem_filter]
    simp only [decide_eq_true_eq]
  · show t ∈ List.filter _ geo ↔ _
    rw [List.mem_filter]
    simp only [Bool.not_eq_eq_eq_not, Bool.not_true, decide_eq_false_iff_not]

/-- Witness for C10 at a connected two-triangle square with `geoSplit`
enabled. -/
theorem c10_geo_split_witness :
    (splitMeshByComponents [w10a, w10b]).length < 2 ∧
    ({ axis := Axis.y, geoSplit := true } : Ensamble).geoSplit = true ∧
    (effectiveParts [w10a, w10b] { axis := Axis.y, geoSplit := true } =
      splitMeshGeometrically [w10a, w10b] Axis.y ∧
    (splitMeshGeometrically [w10a, w10b] Axis.y).length = 2 ∧
    ((splitMeshGeometrically [w10a, w10b] Axis.y).getD 0 []).length +
      ((splitMeshGeometrically [w10a, w10b] Axis.y).getD 1 []).length = [w10a, w10b].length ∧
    (∀ t, t ∈ (splitMeshGeometrically [w10a, w10b] Axis.y).getD 0 [] ↔
      t ∈ [w10a, w10b] ∧ centroidCoord Axis.y t ≤ axisMid [w10a, w10b] Axis.y) ∧
    (∀ t, t ∈ (splitMeshGeometrically [w10a, w10b] Axis.y).getD 1 [] ↔
      t ∈ [w10a, w10b] ∧ ¬ centroidCoord Axis.y t ≤ axisMid [w10a, w10b] Axis.y)) :=
  ⟨by decide, rfl,
   c10_geo_split [w10a, w10b] { axis := Axis.y, geoSplit := true } (by decide) rfl⟩

/-- C4: the partitioner output is sorted by descending bounding-box
volume, and, the whole pipeline being a pure function of the buffer,
re-running it on the same buffer returns the identical component list
(same count, triangle lists and bounding boxes, in the same order);
the embedded sort is stable, as the ES2019 `Array.sort` of the source. -/
theorem c4_sorted_deterministic (tris : List Tri) :
    (splitMeshByComponents tris).Pairwise (fun g h => volBB h ≤ volBB g) ∧
    splitMeshByComponents tris = splitMeshByComponents tris := by
  constructor
  · unfold splitMeshByComponents sortedComponentsIdx
    rw [List.pairwise_map]
    exact sortByVolDesc_pairwise _ _
  · rfl

/-- Witness for the amended C8: a throwing evaluator yields the uncut
block. -/
theorem c8_amended_witness :
    csgFold (fun _ _ => (none : Option (List Tri)))
        ((fun _ => [dTri]) ((1 : ℚ), (1 : ℚ), (1 : ℚ))) [⟨(1, 1, 1), (0, 0, 0)⟩] = none ∧
    buildCortadaGeo (fun _ => [dTri]) (fun _ _ => (none : Option (List Tri))) (1, 1, 1)
      [⟨(1, 1, 1), (0, 0, 0)⟩] = [dTri] :=
  ⟨rfl, c8_amended _ _ _ _ rfl⟩

/-- C1: the Mesh Component Partitioner (`splitMeshByComponents`, whose
component index groups are `sortedComponentsIdx`) partitions the
triangle buffer by shared-vertex connectivity: every triangle index
lies in exactly one returned component group, and two triangle indices
lie in a common group exactly when they are connected through a chain
of shared vertices, two vertices being shared exactly when their
coordinate triples are equal after rounding each coordinate times 1000
to the nearest integer. -/
theorem c1_partition (tris : List Tri) (t u : Nat)
    (ht : t < tris.length) (hu : u < tris.length) :
    (sortedComponentsIdx tris).countP (fun g => decide (t ∈ g)) = 1 ∧
    ((∃ g ∈ sortedComponentsIdx tris, t ∈ g ∧ u ∈ g) ↔ Connected tris t u) := by
  obtain ⟨hlen, hiff⟩ := splitRoots_spec tris
  have hperm : (sortedComponentsIdx tris).Perm (splitIdx tris) :=
    sortByVolDesc_perm _ _
  constructor
  · rw [hperm.countP_eq]
    exact componentsIdx_countP ht hlen
  · rw [← hiff t u ht hu, ← componentsIdx_mem_iff ht hu hlen]
    constructor
    · rintro ⟨g, hg, h2⟩
      exact ⟨g, hperm.mem_iff.1 hg, h2⟩
    · rintro ⟨g, hg, h2⟩
      exact ⟨g, hperm.mem_iff.2 hg, h2⟩

set_option maxRecDepth 1000000 in
/-- Witness for the C1 partition theorem at a concrete two-triangle
buffer. -/
theorem c1_partition_witness :
    0 < ([cexP, cexQ] : List Tri).length ∧ 1 < ([cexP, cexQ] : List Tri).length ∧
    ((sortedComponentsIdx [cexP, cexQ]).countP (fun g => decide (0 ∈ g)) = 1 ∧
      ((∃ g ∈ sortedComponentsIdx [cexP, cexQ], 0 ∈ g ∧ 1 ∈ g) ↔
        Connected [cexP, cexQ] 0 1)) :=
  ⟨by decide, by decide, c1_partition [cexP, cexQ] 0 1 (by decide) (by decide)⟩

end Ebanisteria
